import Mathlib

/-!
# ermes-labs/client-go: session-affinity HTTP client

A shallow embedding of `client.go` and `request.go` together with the parts of
the Go standard library whose behaviour the client depends on
(`unicode/utf8`, `encoding/json` for the `ErmesToken` record,
`net/textproto` header-key canonicalisation, `net/http` headers and request
construction).  `net/url.Parse` and the network round trip of `http.Client.Do`
are parameters of the model.

Conventions
* A Go `string` is a byte sequence, modelled as `List Nat` (every entry of a
  real Go string is below 256).
* Shifts and masks on runes are written with `/` and `%` on `Nat`
  (`r >> 6` is `r / 64`, `r & 0x3F` is `r % 64`, `0xC0 | x` is `0xC0 + x`).
* Pointers are modelled by value: `*ErmesToken` is `Option ErmesToken`,
  a nil `http.Header` is `none`.
-/

namespace Ermes

/-! ## Go strings and `unicode/utf8` -/

/-- A Go `string` (or `[]byte`): a sequence of bytes. -/
abbrev GoString := List Nat

/-- The constant `utf8.RuneError` (U+FFFD). -/
def RuneError : Nat := 0xFFFD

/-- Go `utf8.AppendRune` applied to an empty slice: the UTF-8 encoding of the
rune `r`; surrogates and out-of-range values are encoded as `RuneError`. -/
def utf8AppendRune (r : Nat) : GoString :=
  if r ≤ 0x7F then [r]
  else if r ≤ 0x7FF then [0xC0 + r / 64, 0x80 + r % 64]
  else if 0x10FFFF < r ∨ (0xD800 ≤ r ∧ r ≤ 0xDFFF) then [0xEF, 0xBF, 0xBD]
  else if r ≤ 0xFFFF then [0xE0 + r / 4096, 0x80 + r / 64 % 64, 0x80 + r % 64]
  else [0xF0 + r / 262144, 0x80 + r / 4096 % 64, 0x80 + r / 64 % 64, 0x80 + r % 64]

/-- Go `utf8.DecodeRune`: the first rune of `p` and its width in bytes.
Returns `(RuneError, 0)` on empty input and `(RuneError, 1)` on an invalid
or truncated encoding.  The lead-byte table `first` and `acceptRanges` are
written out as comparisons. -/
def utf8DecodeRune : GoString → Nat × Nat
  | [] => (RuneError, 0)
  | p0 :: p =>
    if p0 < 0x80 then (p0, 1)
    else if p0 < 0xC2 ∨ 0xF4 < p0 then (RuneError, 1)
    else
      let sz := if p0 < 0xE0 then 2 else if p0 < 0xF0 then 3 else 4
      let lo := if p0 = 0xE0 then 0xA0 else if p0 = 0xF0 then 0x90 else 0x80
      let hi := if p0 = 0xED then 0x9F else if p0 = 0xF4 then 0x8F else 0xBF
      if p.length + 1 < sz then (RuneError, 1)
      else match p with
        | [] => (RuneError, 1)
        | b1 :: p1 =>
          if b1 < lo ∨ hi < b1 then (RuneError, 1)
          else if sz ≤ 2 then (p0 % 32 * 64 + b1 % 64, 2)
          else match p1 with
            | [] => (RuneError, 1)
            | b2 :: p2 =>
              if b2 < 0x80 ∨ 0xBF < b2 then (RuneError, 1)
              else if sz ≤ 3 then (p0 % 16 * 4096 + b1 % 64 * 64 + b2 % 64, 3)
              else match p2 with
                | [] => (RuneError, 1)
                | b3 :: _ =>
                  if b3 < 0x80 ∨ 0xBF < b3 then (RuneError, 1)
                  else (p0 % 8 * 262144 + b1 % 64 * 4096 + b2 % 64 * 64 + b3 % 64, 4)

/-- Go `utf8.Valid` (as a loop over `utf8DecodeRune`): no position decodes to
an encoding error.  The first argument bounds the number of runes read. -/
def utf8ValidLoop : Nat → GoString → Bool
  | _, [] => true
  | 0, _ :: _ => false
  | fuel + 1, b :: rest =>
    let (c, size) := utf8DecodeRune (b :: rest)
    if c = RuneError ∧ size = 1 then false
    else utf8ValidLoop fuel ((b :: rest).drop size)

/-- Go `utf8.Valid`. -/
def utf8Valid (s : GoString) : Bool := utf8ValidLoop s.length s

/-- A Go string literal: the UTF-8 bytes of the text. -/
def str (s : String) : GoString := s.toList.flatMap fun c => utf8AppendRune c.toNat

/-! ## `encoding/json`: encoding -/

/-- The table `htmlSafeSet` of `encoding/json`: the ASCII bytes written
without escaping when HTML escaping is on (the setting of `json.Marshal`). -/
def htmlSafeSet (b : Nat) : Bool :=
  0x20 ≤ b ∧ b < 0x80 ∧ b ≠ 0x22 ∧ b ≠ 0x26 ∧ b ≠ 0x3C ∧ b ≠ 0x3E ∧ b ≠ 0x5C

/-- The digit table `hex` of `encoding/json`. -/
def hexDigit (n : Nat) : Nat := if n < 10 then 0x30 + n else 0x61 + (n - 10)

/-- The escape written by `appendString` for an ASCII byte that is not in
`htmlSafeSet`. -/
def escapeByte (b : Nat) : GoString :=
  if b = 0x5C ∨ b = 0x22 then [0x5C, b]
  else if b = 0x08 then [0x5C, 0x62]
  else if b = 0x0C then [0x5C, 0x66]
  else if b = 0x0A then [0x5C, 0x6E]
  else if b = 0x0D then [0x5C, 0x72]
  else if b = 0x09 then [0x5C, 0x74]
  else [0x5C, 0x75, 0x30, 0x30, hexDigit (b / 16), hexDigit (b % 16)]

/-- The loop of `appendString` in `encoding/json` (with `escapeHTML = true`),
producing the text between the quotes.  The first argument bounds the number
of iterations; each iteration consumes at least one byte. -/
def appendStringLoop : Nat → GoString → GoString
  | _, [] => []
  | 0, _ :: _ => []
  | fuel + 1, b :: rest =>
    if b < 0x80 then
      (if htmlSafeSet b then [b] else escapeByte b) ++ appendStringLoop fuel rest
    else
      let (c, size) := utf8DecodeRune (b :: rest)
      if c = RuneError ∧ size = 1 then
        [0x5C, 0x75, 0x66, 0x66, 0x66, 0x64] ++ appendStringLoop fuel rest
      else if c = 0x2028 ∨ c = 0x2029 then
        [0x5C, 0x75, 0x32, 0x30, 0x32, hexDigit (c % 16)]
          ++ appendStringLoop fuel ((b :: rest).drop size)
      else
        (b :: rest).take size ++ appendStringLoop fuel ((b :: rest).drop size)

/-- Go `appendString` of `encoding/json`: a JSON string literal for `s`. -/
def appendString (s : GoString) : GoString :=
  [0x22] ++ appendStringLoop s.length s ++ [0x22]

/-! ## Errors and the token record -/

/-- Go `error` values that the client can return. -/
inductive Error where
  /-- The value `errors.New("either initialOrigin or initialToken must be set")`. -/
  | missingOrigin
  /-- The error of `http.NewRequest` on a method that is not a token. -/
  | invalidMethod (method : GoString)
  /-- A `*json.SyntaxError`. -/
  | jsonSyntaxError
  /-- A `*json.UnmarshalTypeError` with the given `Value` description. -/
  | jsonUnmarshalTypeError (value : String)
  /-- Any other error value (a `*url.Error`, a transport failure, ...). -/
  | other (code : Nat)
  deriving DecidableEq, Repr

deriving instance DecidableEq for Except

/-- The record `ErmesToken` of `client.go`. -/
structure ErmesToken where
  SessionID : GoString
  Host : GoString
  deriving DecidableEq, Repr

/-- Go `json.Marshal(token)` for `token *ErmesToken`: the struct encoder writes
the two fields in declaration order under their tag names, with no spaces.
`json.Marshal` never fails on this record, but the client checks its error
result, so the model keeps the `Except`. -/
def jsonMarshal (token : ErmesToken) : Except Error GoString :=
  .ok (str "\x7b\"sessionId\":" ++ appendString token.SessionID
        ++ str ",\"host\":" ++ appendString token.Host ++ str "\x7d")

/-! ## `encoding/json`: decoding -/

/-- A parsed JSON value.  String values and object keys are stored unquoted. -/
inductive JValue where
  | null
  | bool (b : Bool)
  | number (raw : GoString)
  | string (s : GoString)
  | array (elems : List JValue)
  | object (members : List (GoString × JValue))

/-- The function `isSpace` of the JSON scanner. -/
def isSpace (c : Nat) : Bool := c = 0x20 ∨ c = 0x09 ∨ c = 0x0D ∨ c = 0x0A

/-- Skip leading JSON white space. -/
def skipSpace : GoString → GoString
  | [] => []
  | c :: rest => if isSpace c then skipSpace rest else c :: rest

/-- The value of a hexadecimal digit, as in `getu4`. -/
def hexVal (c : Nat) : Option Nat :=
  if 0x30 ≤ c ∧ c ≤ 0x39 then some (c - 0x30)
  else if 0x61 ≤ c ∧ c ≤ 0x66 then some (c - 0x61 + 10)
  else if 0x41 ≤ c ∧ c ≤ 0x46 then some (c - 0x41 + 10)
  else none

/-- Go `getu4`: the code unit of a leading `\uXXXX` escape, `none` for Go's -1. -/
def getu4 : GoString → Option Nat
  | 0x5C :: 0x75 :: h1 :: h2 :: h3 :: h4 :: _ =>
    match hexVal h1, hexVal h2, hexVal h3, hexVal h4 with
    | some a, some b, some c, some d => some (((a * 16 + b) * 16 + c) * 16 + d)
    | _, _, _, _ => none
  | _ => none

/-- The scanner states `stateInString`, `stateInStringEsc` and
`stateInStringEscU..U123`: given the text after an opening quote, the raw
literal up to the closing quote and the text after it.  Control characters
and malformed escapes are syntax errors. -/
def scanString : GoString → Option (GoString × GoString)
  | [] => none
  | c :: rest =>
    if c = 0x22 then some ([], rest)
    else if c = 0x5C then
      match rest with
      | [] => none
      | e :: rest1 =>
        if e = 0x62 ∨ e = 0x66 ∨ e = 0x6E ∨ e = 0x72 ∨ e = 0x74
            ∨ e = 0x5C ∨ e = 0x2F ∨ e = 0x22 then
          (scanString rest1).map fun r => (c :: e :: r.1, r.2)
        else if e = 0x75 then
          match rest1 with
          | h1 :: h2 :: h3 :: h4 :: rest5 =>
            if (hexVal h1).isSome ∧ (hexVal h2).isSome
                ∧ (hexVal h3).isSome ∧ (hexVal h4).isSome then
              (scanString rest5).map fun r => (c :: e :: h1 :: h2 :: h3 :: h4 :: r.1, r.2)
            else none
          | _ => none
        else none
    else if c < 0x20 then none
    else (scanString rest).map fun r => (c :: r.1, r.2)

/-- The loop of Go `unquoteBytes` over the text between the quotes of a string
literal (the preceding fast path returns the same bytes when nothing needs
unquoting).  Escapes are decoded, surrogate pairs combined, and invalid UTF-8
is replaced by U+FFFD.  The first argument bounds the number of iterations. -/
def unquoteLoop : Nat → GoString → Option GoString
  | _, [] => some []
  | 0, _ :: _ => none
  | fuel + 1, c :: rest =>
    if c = 0x5C then
      match rest with
      | [] => none
      | e :: rest1 =>
        if e = 0x22 ∨ e = 0x5C ∨ e = 0x2F ∨ e = 0x27 then
          (unquoteLoop fuel rest1).map fun t => e :: t
        else if e = 0x62 then (unquoteLoop fuel rest1).map fun t => 0x08 :: t
        else if e = 0x66 then (unquoteLoop fuel rest1).map fun t => 0x0C :: t
        else if e = 0x6E then (unquoteLoop fuel rest1).map fun t => 0x0A :: t
        else if e = 0x72 then (unquoteLoop fuel rest1).map fun t => 0x0D :: t
        else if e = 0x74 then (unquoteLoop fuel rest1).map fun t => 0x09 :: t
        else if e = 0x75 then
          match getu4 (c :: rest) with
          | none => none
          | some rr =>
            let after := rest.drop 5
            if 0xD800 ≤ rr ∧ rr < 0xE000 then
              match getu4 after with
              | some rr1 =>
                if rr < 0xDC00 ∧ 0xDC00 ≤ rr1 ∧ rr1 < 0xE000 then
                  (unquoteLoop fuel (after.drop 6)).map fun t =>
                    utf8AppendRune ((rr - 0xD800) * 1024 + (rr1 - 0xDC00) + 0x10000) ++ t
                else (unquoteLoop fuel after).map fun t => utf8AppendRune RuneError ++ t
              | none => (unquoteLoop fuel after).map fun t => utf8AppendRune RuneError ++ t
            else (unquoteLoop fuel after).map fun t => utf8AppendRune rr ++ t
        else none
    else if c = 0x22 ∨ c < 0x20 then none
    else if c < 0x80 then (unquoteLoop fuel rest).map fun t => c :: t
    else
      let (rr, size) := utf8DecodeRune (c :: rest)
      (unquoteLoop fuel ((c :: rest).drop size)).map fun t => utf8AppendRune rr ++ t

/-- Go `unquoteBytes` on the text between the quotes of a string literal. -/
def unquote (lit : GoString) : Option GoString := unquoteLoop lit.length lit

/-- ASCII decimal digit. -/
def isDigit (c : Nat) : Bool := 0x30 ≤ c ∧ c ≤ 0x39

/-- Skip a run of decimal digits. -/
def skipDigits : GoString → GoString
  | [] => []
  | c :: rest => if isDigit c then skipDigits rest else c :: rest

/-- The scanner states `stateE`, `stateESign`, `stateE0`: an optional exponent. -/
def scanExponent : GoString → Option GoString
  | [] => some []
  | e :: r =>
    if e = 0x65 ∨ e = 0x45 then
      match (match r with
        | [] => r
        | sg :: r1 => if sg = 0x2B ∨ sg = 0x2D then r1 else r) with
      | [] => none
      | d :: r2 => if isDigit d then some (skipDigits r2) else none
    else some (e :: r)

/-- The scanner states `stateDot`, `stateDot0`: an optional fraction, then
the exponent. -/
def scanFraction : GoString → Option GoString
  | [] => some []
  | c :: r =>
    if c = 0x2E then
      match r with
      | [] => none
      | d :: r1 => if isDigit d then scanExponent (skipDigits r1) else none
    else scanExponent (c :: r)

/-- The scanner states `stateNeg`, `state0`, `state1` and their successors: the
text after a number literal that starts at the head of the input. -/
def scanNumber (s : GoString) : Option GoString :=
  match (match s with
    | [] => s
    | m :: r => if m = 0x2D then r else s) with
  | [] => none
  | c :: r =>
    if c = 0x30 then scanFraction r
    else if 0x31 ≤ c ∧ c ≤ 0x39 then scanFraction (skipDigits r)
    else none

/-- Strip the given literal text from the head of the input. -/
def stripLiteral : GoString → GoString → Option GoString
  | [], s => some s
  | _ :: _, [] => none
  | l :: lit, c :: s => if l = c then stripLiteral lit s else none

/-- The constant `maxNestingDepth` of the JSON scanner. -/
def maxNestingDepth : Nat := 10000

mutual
/-- One JSON value at the head of the input (after white space), with the text
that follows it.  `depth` is the number of enclosing arrays and objects; the
first argument bounds the number of nested calls (every call is made after at
least one byte has been consumed). -/
def parseValue : Nat → Nat → GoString → Option (JValue × GoString)
  | 0, _, _ => none
  | fuel + 1, depth, s =>
    match skipSpace s with
    | [] => none
    | c :: rest =>
      if c = 0x7B then
        if maxNestingDepth < depth + 1 then none
        else match skipSpace rest with
          | [] => none
          | c1 :: rest1 =>
            if c1 = 0x7D then some (.object [], rest1)
            else (parseMembers fuel (depth + 1) (c1 :: rest1)).map
              fun r => (.object r.1, r.2)
      else if c = 0x5B then
        if maxNestingDepth < depth + 1 then none
        else match skipSpace rest with
          | [] => none
          | c1 :: rest1 =>
            if c1 = 0x5D then some (.array [], rest1)
            else (parseElements fuel (depth + 1) (c1 :: rest1)).map
              fun r => (.array r.1, r.2)
      else if c = 0x22 then
        match scanString rest with
        | none => none
        | some (lit, rest1) => (unquote lit).map fun t => (.string t, rest1)
      else if c = 0x2D ∨ isDigit c then
        (scanNumber (c :: rest)).map fun r =>
          (.number ((c :: rest).take ((c :: rest).length - r.length)), r)
      else if c = 0x74 then
        (stripLiteral [0x72, 0x75, 0x65] rest).map fun r => (.bool true, r)
      else if c = 0x66 then
        (stripLiteral [0x61, 0x6C, 0x73, 0x65] rest).map fun r => (.bool false, r)
      else if c = 0x6E then
        (stripLiteral [0x75, 0x6C, 0x6C] rest).map fun r => (.null, r)
      else none
/-- The members of an object from its first key to the closing brace. -/
def parseMembers : Nat → Nat → GoString → Option (List (GoString × JValue) × GoString)
  | 0, _, _ => none
  | fuel + 1, depth, s =>
    match skipSpace s with
    | [] => none
    | q :: rest =>
      if q = 0x22 then
        match scanString rest with
        | none => none
        | some (lit, rest1) =>
          match unquote lit with
          | none => none
          | some key =>
            match skipSpace rest1 with
            | [] => none
            | colon :: rest2 =>
              if colon = 0x3A then
                match parseValue fuel depth rest2 with
                | none => none
                | some (v, rest3) =>
                  match skipSpace rest3 with
                  | [] => none
                  | d :: rest4 =>
                    if d = 0x2C then
                      (parseMembers fuel depth rest4).map fun r => ((key, v) :: r.1, r.2)
                    else if d = 0x7D then some ([(key, v)], rest4)
                    else none
              else none
      else none
/-- The elements of an array from its first element to the closing bracket. -/
def parseElements : Nat → Nat → GoString → Option (List JValue × GoString)
  | 0, _, _ => none
  | fuel + 1, depth, s =>
    match parseValue fuel depth s with
    | none => none
    | some (v, rest) =>
      match skipSpace rest with
      | [] => none
      | d :: rest1 =>
        if d = 0x2C then (parseElements fuel depth rest1).map fun r => (v :: r.1, r.2)
        else if d = 0x5D then some ([v], rest1)
        else none
end

/-- The scanner pass `checkValid` together with the tokenisation done by the
decoder: the input is one JSON value surrounded by optional white space.
The bound on nested calls is ample: a call is made for each value and for each
member or element, and each of them holds at least one byte of its own. -/
def parseJSON (data : GoString) : Option JValue :=
  match parseValue (2 * data.length + 1) 0 data with
  | none => none
  | some (v, rest) => if skipSpace rest = [] then some v else none

/-- The fields of `ErmesToken` that a JSON object key can select. -/
inductive TokenField where
  | sessionId
  | host
  deriving DecidableEq, Repr

/-- The case folding that the decoder applies to an object key before the
case-insensitive field lookup (`foldName` of `encoding/json`): ASCII letters
are upper-cased; a multi-byte rune is replaced by the smallest rune of its
simple-fold orbit.  Only two non-ASCII runes have an ASCII letter in their
orbit (U+017F folds to `S`, U+212A folds to `K`); every other non-ASCII rune
folds to a non-ASCII rune, which is kept as it is here, so that the comparison
with the fold of an ASCII field name has the outcome it has in Go.  The first
argument bounds the number of iterations. -/
def foldNameLoop : Nat → GoString → GoString
  | _, [] => []
  | 0, _ :: _ => []
  | fuel + 1, c :: rest =>
    if c < 0x80 then
      (if 0x61 ≤ c ∧ c ≤ 0x7A then c - 0x20 else c) :: foldNameLoop fuel rest
    else
      let (r, n) := utf8DecodeRune (c :: rest)
      utf8AppendRune (if r = 0x17F then 0x53 else if r = 0x212A then 0x4B else r)
        ++ foldNameLoop fuel ((c :: rest).drop n)

/-- Go `foldName` of `encoding/json`, as far as ASCII field names can tell. -/
def foldName (key : GoString) : GoString := foldNameLoop key.length key

/-- The field lookup of the struct decoder: an exact match on the tag name,
otherwise a match of the folded names. -/
def lookupField (key : GoString) : Option TokenField :=
  if key = str "sessionId" then some .sessionId
  else if key = str "host" then some .host
  else if foldName key = foldName (str "sessionId") then some .sessionId
  else if foldName key = foldName (str "host") then some .host
  else none

/-- The state of the decoder while it fills an `ErmesToken`: the record so
far and the first saved `UnmarshalTypeError`, if any. -/
structure DecodeState where
  token : ErmesToken
  savedError : Option Error

/-- The decoder storing a JSON value into a Go `string` field
(`d.value` on a `reflect.String`): a string is stored, `null` leaves the field
as it is, anything else saves an `UnmarshalTypeError` and is skipped. -/
def storeString (st : DecodeState) (f : TokenField) (v : JValue) : DecodeState :=
  let save (value : String) : DecodeState :=
    { st with savedError := st.savedError.orElse fun _ => some (.jsonUnmarshalTypeError value) }
  match v with
  | .string s =>
    match f with
    | .sessionId => { st with token := { st.token with SessionID := s } }
    | .host => { st with token := { st.token with Host := s } }
  | .null => st
  | .bool _ => save "bool"
  | .number _ => save "number"
  | .array _ => save "array"
  | .object _ => save "object"

/-- The loop of `d.object` over the members of a JSON object when the target
is an `ErmesToken`: a key that selects no field is skipped with its value. -/
def decodeMembers (st : DecodeState) : List (GoString × JValue) → DecodeState
  | [] => st
  | (key, v) :: rest =>
    match lookupField key with
    | none => decodeMembers st rest
    | some f => decodeMembers (storeString st f v) rest

/-- The decoder `d.unmarshal` into `&ErmesToken{}` after the input has been
found well-formed: an object fills the record, `null` leaves it at its zero
value, any other value is an `UnmarshalTypeError`. -/
def decodeToken (v : JValue) : Except Error ErmesToken :=
  match v with
  | .object members =>
    let st := decodeMembers ⟨⟨[], []⟩, none⟩ members
    match st.savedError with
    | some err => .error err
    | none => .ok st.token
  | .null => .ok ⟨[], []⟩
  | .bool _ => .error (.jsonUnmarshalTypeError "bool")
  | .number _ => .error (.jsonUnmarshalTypeError "number")
  | .string _ => .error (.jsonUnmarshalTypeError "string")
  | .array _ => .error (.jsonUnmarshalTypeError "array")

/-- Go `json.Unmarshal(data, token)` with `token := &ErmesToken{}`. -/
def jsonUnmarshal (data : GoString) : Except Error ErmesToken :=
  match parseJSON data with
  | none => .error .jsonSyntaxError
  | some v => decodeToken v

/-! ## `net/textproto` and `net/http` headers -/

/-- The table `isTokenTable` (`validHeaderFieldByte` of `net/textproto`,
`httpguts.IsTokenRune`): the bytes allowed in a header name or a method. -/
def validHeaderFieldByte (c : Nat) : Bool :=
  (0x30 ≤ c ∧ c ≤ 0x39) ∨ (0x41 ≤ c ∧ c ≤ 0x5A) ∨ (0x61 ≤ c ∧ c ≤ 0x7A)
    ∨ c = 0x21 ∨ c = 0x23 ∨ c = 0x24 ∨ c = 0x25 ∨ c = 0x26 ∨ c = 0x27 ∨ c = 0x2A
    ∨ c = 0x2B ∨ c = 0x2D ∨ c = 0x2E ∨ c = 0x5E ∨ c = 0x5F ∨ c = 0x60 ∨ c = 0x7C
    ∨ c = 0x7E

/-- The rewriting loop of `canonicalMIMEHeaderKey`: upper case at the start and
after each dash, lower case elsewhere. -/
def canonicalLoop (upper : Bool) : GoString → GoString
  | [] => []
  | c :: rest =>
    let c1 :=
      if upper ∧ 0x61 ≤ c ∧ c ≤ 0x7A then c - 0x20
      else if ¬upper ∧ 0x41 ≤ c ∧ c ≤ 0x5A then c + 0x20
      else c
    c1 :: canonicalLoop (c1 = 0x2D) rest

/-- Go `textproto.CanonicalMIMEHeaderKey`: a key holding a space or a byte
that is not allowed in a header name is returned unchanged. -/
def CanonicalMIMEHeaderKey (s : GoString) : GoString :=
  if s.all validHeaderFieldByte then canonicalLoop true s else s

/-- A non-nil Go `http.Header` (`map[string][]string`), as an association
list read through `HeaderMap.values`: the first entry for a key is the
binding of that key. -/
abbrev HeaderMap := List (GoString × List GoString)

/-- The map read `h[key]` (nil slice when the key is unbound). -/
def HeaderMap.values (h : HeaderMap) (key : GoString) : List GoString :=
  match h.lookup key with
  | some vs => vs
  | none => []

/-- The map write `h[key] = vs`. -/
def HeaderMap.assign (h : HeaderMap) (key : GoString) (vs : List GoString) : HeaderMap :=
  (key, vs) :: h.filter fun e => e.1 ≠ key

/-- Go `Header.Set` on a non-nil header. -/
def HeaderMap.Set (h : HeaderMap) (key value : GoString) : HeaderMap :=
  h.assign (CanonicalMIMEHeaderKey key) [value]

/-- Go `http.Header`; `none` is the nil map. -/
abbrev Header := Option HeaderMap

/-- The map read `h[key]` on a possibly nil header. -/
def Header.index (h : Header) (key : GoString) : List GoString :=
  match h with
  | none => []
  | some m => m.values key

/-- Go `Header.Values`: all values bound to the canonical form of `key`. -/
def Header.Values (h : Header) (key : GoString) : List GoString :=
  h.index (CanonicalMIMEHeaderKey key)

/-- Go `Header.Get`: the first value bound to the canonical form of `key`,
or the empty string. -/
def Header.Get (h : Header) (key : GoString) : GoString :=
  match h.index (CanonicalMIMEHeaderKey key) with
  | [] => []
  | v :: _ => v

/-- The values a header map carries for a field name once it is written
out.  Go `Header.Write` writes every key of the map under the spelling it has
in the map, one line for each value, and leaves out a key that is no valid
field name; HTTP matches field names without regard to case.  So these are the
values of every key of the map whose canonical form is the canonical form of
`name`.  `seen` holds the keys already met: a later entry of the association
list for one of them is no binding of the map. -/
def HeaderMap.fieldValuesLoop (name : GoString) (seen : List GoString) :
    HeaderMap → List GoString
  | [] => []
  | (key, vs) :: rest =>
    if key ∈ seen then fieldValuesLoop name seen rest
    else if key ≠ [] ∧ key.all validHeaderFieldByte = true ∧
        CanonicalMIMEHeaderKey key = CanonicalMIMEHeaderKey name then
      vs ++ fieldValuesLoop name (key :: seen) rest
    else fieldValuesLoop name (key :: seen) rest

/-- The values a possibly nil header carries for a field name once it is
written out, under every spelling of the name. -/
def Header.fieldValues (h : Header) (name : GoString) : List GoString :=
  match h with
  | none => []
  | some m => m.fieldValuesLoop name []

/-! ## `net/url` and `net/http` requests -/

/-- The fields of Go `url.URL` that matter here. -/
structure URL where
  Scheme : GoString
  Host : GoString
  Path : GoString
  RawQuery : GoString
  Fragment : GoString
  deriving DecidableEq, Repr

/-- The position of the last occurrence of a byte, counted from 1
(0 when absent): `strings.LastIndex(s, c) + 1`. -/
def lastIndexSucc (c : Nat) (s : GoString) : Nat :=
  (s.enum.foldl (fun acc e => if e.2 = c then e.1 + 1 else acc) 0)

/-- Go `hasPort` of `net/http`: a colon after the last closing bracket. -/
def hasPort (s : GoString) : Bool := lastIndexSucc 0x5D s < lastIndexSucc 0x3A s

/-- Go `removeEmptyPort` of `net/http`: strip a trailing colon of a host that
has a port separator. -/
def removeEmptyPort (host : GoString) : GoString :=
  if hasPort host then
    (if host.getLast? = some 0x3A then host.dropLast else host)
  else host

/-- The fields of Go `http.Request` that the client reads or writes. -/
structure Request where
  Method : GoString
  URL : Option URL
  Header : Header
  Body : Option GoString
  Host : GoString
  deriving DecidableEq, Repr

/-- The fields of Go `http.Response` that the client reads. -/
structure Response where
  StatusCode : Int
  Header : Header
  Body : GoString
  deriving DecidableEq, Repr

/-- The constant `http.StatusOK`. -/
def StatusOK : Int := 200

/-- The standard-library behaviour the model takes as given. -/
structure Env where
  /-- Go `url.Parse`. -/
  urlParse : GoString → Except Error URL

/-- Go `http.NewRequest(method, url, body)`: the method must be a token (the
empty method means GET), the URL must parse, an empty port is dropped from the
host, and the request starts with an empty non-nil header. -/
def NewRequest (env : Env) (method url : GoString) (body : Option GoString) :
    Except Error Request :=
  let method := if method = [] then str "GET" else method
  if ¬ method.all validHeaderFieldByte then .error (.invalidMethod method)
  else match env.urlParse url with
    | .error err => .error err
    | .ok u =>
      let u := { u with Host := removeEmptyPort u.Host }
      .ok { Method := method, URL := some u, Header := some [], Body := body, Host := u.Host }

/-! ## `request.go` -/

/-- The constant `placeholderURL` of `request.go`. -/
def placeholderURL : GoString := str "https://google.com"

/-- The function `NewErmesRequest` of `request.go`. -/
def NewErmesRequest (env : Env) (method : GoString) (body : Option GoString) :
    Except Error Request :=
  NewRequest env method placeholderURL body

/-- The function `NewErmesRequestWithContext` of `request.go`; the context
(never nil here) has no part in the fields modelled. -/
def NewErmesRequestWithContext (env : Env) (method : GoString) (body : Option GoString) :
    Except Error Request :=
  NewRequest env method placeholderURL body

/-! ## `client.go` -/

/-- The constant `DefaultTokenHeaderName`. -/
def DefaultTokenHeaderName : GoString := str "X-ErmesSessionToken"

/-- A Go `http.Client` value, identified by its configuration. -/
structure HTTPClient where
  config : Nat
  deriving DecidableEq, Repr

/-- The zero value `http.Client{}`. -/
def HTTPClient.zero : HTTPClient := ⟨0⟩

/-- The outcome of `httpClient.Do(request)` at the moment of one call: the
behaviour of the network and the server, which the client does not control. -/
abbrev RoundTrip := HTTPClient → Request → Except Error Response

/-- The struct `ErmesClientOptions`. -/
structure ErmesClientOptions where
  HttpClient : Option HTTPClient
  TokenHeaderName : GoString
  Scheme : GoString
  InitialOrigin : GoString
  InitialToken : Option ErmesToken
  deriving DecidableEq, Repr

/-- The dynamic value of the field `tokenOrInitialHost interface{}`: the nil
interface of a zero `ErmesClient`, a `string`, or a `*ErmesToken`. -/
inductive RoutingTarget where
  | nil
  | host (h : GoString)
  | token (t : ErmesToken)
  deriving DecidableEq, Repr

/-- The struct `ErmesClient`. -/
structure ErmesClient where
  httpClient : HTTPClient
  scheme : GoString
  tokenHeaderName : GoString
  tokenOrInitialHost : RoutingTarget
  deriving DecidableEq, Repr

/-- The function `NewErmesClient`. -/
def NewErmesClient (env : Env) (options : ErmesClientOptions) : Except Error ErmesClient :=
  let httpClient :=
    match options.HttpClient with
    | some h => h
    | none => HTTPClient.zero
  let tokenHeaderName :=
    if options.TokenHeaderName ≠ [] then options.TokenHeaderName else DefaultTokenHeaderName
  match options.InitialToken with
  | some token =>
    .ok { httpClient := httpClient
          tokenHeaderName := tokenHeaderName
          tokenOrInitialHost := .token token
          scheme := if options.Scheme ≠ [] then options.Scheme else str "https" }
  | none =>
    if options.InitialOrigin ≠ [] then
      match env.urlParse options.InitialOrigin with
      | .error err => .error err
      | .ok u =>
        .ok { httpClient := httpClient
              tokenHeaderName := tokenHeaderName
              scheme := u.Scheme
              tokenOrInitialHost := .host u.Host }
    else .error .missingOrigin

/-- The method `Token`. -/
def ErmesClient.Token (c : ErmesClient) : Option ErmesToken :=
  match c.tokenOrInitialHost with
  | .token token => some token
  | _ => none

/-- The method `Host`. -/
def ErmesClient.Host (c : ErmesClient) : GoString :=
  match c.tokenOrInitialHost with
  | .host host => host
  | .token token => token.Host
  | .nil => []

/-- The method `StringURL`: `fmt.Sprintf("%s://%s%s", c.scheme, c.Host(), path)`. -/
def ErmesClient.StringURL (c : ErmesClient) (path : GoString) : GoString :=
  c.scheme ++ str "://" ++ c.Host ++ path

/-- The method `URL`. -/
def ErmesClient.URL (c : ErmesClient) (env : Env) (path : GoString) : Except Error URL :=
  env.urlParse (c.StringURL path)

/-- What one call on the client leaves behind: the client after the call, the
requests handed to `httpClient.Do` during the call (in order), and the values
returned to the caller (a response or an error). -/
structure CallResult where
  client : ErmesClient
  sent : List Request
  result : Except Error Response
  deriving DecidableEq, Repr

/-- The first part of the method `do` (lower case in the source): when a
token is held, the header map is created if it is nil and the encoded token is
set under the token header name. -/
def ErmesClient.attachToken (c : ErmesClient) (options : Request) : Except Error Request :=
  match c.Token with
  | some token =>
    let header : HeaderMap :=
      match options.Header with
      | none => []
      | some h => h
    match jsonMarshal token with
    | .error err => .error err
    | .ok tokenBytes =>
      .ok { options with Header := some (header.Set c.tokenHeaderName tokenBytes) }
  | none => .ok options

/-- The method `do` (lower case in the source). -/
def ErmesClient.do' (c : ErmesClient) (net : RoundTrip) (options : Request) : CallResult :=
  match c.attachToken options with
  | .error err => ⟨c, [], .error err⟩
  | .ok options =>
    match net c.httpClient options with
    | .error err => ⟨c, [options], .error err⟩
    | .ok response =>
      if response.StatusCode = StatusOK then
        let tokenHeader := response.Header.Get c.tokenHeaderName
        if tokenHeader ≠ [] then
          match jsonUnmarshal tokenHeader with
          | .error err => ⟨c, [options], .error err⟩
          | .ok token => ⟨{ c with tokenOrInitialHost := .token token }, [options], .ok response⟩
        else ⟨c, [options], .ok response⟩
      else ⟨c, [options], .ok response⟩

/-- The method `Get`. -/
def ErmesClient.Get (c : ErmesClient) (env : Env) (net : RoundTrip) (path : GoString) :
    CallResult :=
  match NewRequest env (str "GET") (c.StringURL path) none with
  | .error err => ⟨c, [], .error err⟩
  | .ok req => c.do' net req

/-- The method `Post`. -/
def ErmesClient.Post (c : ErmesClient) (env : Env) (net : RoundTrip) (path : GoString)
    (bodyType : GoString) (body : Option GoString) : CallResult :=
  match NewRequest env (str "POST") (c.StringURL path) body with
  | .error err => ⟨c, [], .error err⟩
  | .ok req =>
    let header : HeaderMap :=
      match req.Header with
      | none => []
      | some h => h
    c.do' net { req with Header := some (header.Set (str "Content-Type") bodyType) }

/-- The method `Head`. -/
def ErmesClient.Head (c : ErmesClient) (env : Env) (net : RoundTrip) (path : GoString) :
    CallResult :=
  match NewRequest env (str "HEAD") (c.StringURL path) none with
  | .error err => ⟨c, [], .error err⟩
  | .ok req => c.do' net req

/-- The method `Do`. -/
def ErmesClient.Do (c : ErmesClient) (env : Env) (net : RoundTrip) (path : GoString)
    (options : Request) : CallResult :=
  match c.URL env path with
  | .error err => ⟨c, [], .error err⟩
  | .ok url => c.do' net { options with URL := some url }

/-! ## Sequences of calls -/

/-- One call on the client through one of its public methods, with the
arguments of the call. -/
inductive Call where
  | Do (path : GoString) (options : Request)
  | Get (path : GoString)
  | Post (path bodyType : GoString) (body : Option GoString)
  | Head (path : GoString)
  deriving DecidableEq, Repr

/-- Perform one call. -/
def ErmesClient.call (c : ErmesClient) (env : Env) (net : RoundTrip) : Call → CallResult
  | .Do path options => c.Do env net path options
  | .Get path => c.Get env net path
  | .Post path bodyType body => c.Post env net path bodyType body
  | .Head path => c.Head env net path

/-- The client after a sequence of calls made one after another; each call
comes with the behaviour of the network at the time it is made. -/
def ErmesClient.after (c : ErmesClient) (env : Env) : List (RoundTrip × Call) → ErmesClient
  | [] => c
  | (net, call) :: rest => ((c.call env net call).client).after env rest

/-- The token that an answer of the transport offers under the header `name`:
the decoding of that header when the answer is a response with status 200
whose header is non-empty and decodes; nothing otherwise. -/
def offeredToken (name : GoString) : Except Error Response → Option ErmesToken
  | .error _ => none
  | .ok response =>
    if response.StatusCode = StatusOK ∧ response.Header.Get name ≠ [] then
      match jsonUnmarshal (response.Header.Get name) with
      | .ok token => some token
      | .error _ => none
    else none

/-- The token offered to the client during one call: the one in the answer of
the transport to the request handed to it, nothing when no request was handed
over. -/
def ErmesClient.offered (c : ErmesClient) (net : RoundTrip) (r : CallResult) :
    Option ErmesToken :=
  match r.sent with
  | [req] => offeredToken c.tokenHeaderName (net c.httpClient req)
  | _ => none

/-- The tokens offered during a sequence of calls, call by call. -/
def ErmesClient.offers (c : ErmesClient) (env : Env) :
    List (RoundTrip × Call) → List (Option ErmesToken)
  | [] => []
  | (net, call) :: rest =>
    c.offered net (c.call env net call) :: ((c.call env net call).client).offers env rest

/-- The latest token of a list of offers, if there is one. -/
def lastSome : List (Option ErmesToken) → Option ErmesToken
  | [] => none
  | o :: rest =>
    match lastSome rest with
    | some t => some t
    | none => o

/-! ## Sample surroundings used to instantiate the theorems -/

/-- Bytes that the sample parser accepts in a host: letters, digits, dot and
dash. -/
def sampleHostByte (c : Nat) : Bool :=
  (0x30 ≤ c ∧ c ≤ 0x39) ∨ (0x41 ≤ c ∧ c ≤ 0x5A) ∨ (0x61 ≤ c ∧ c ≤ 0x7A) ∨ c = 0x2D ∨ c = 0x2E

/-- Bytes that the sample parser accepts in a path: host bytes, slash and
underscore. -/
def samplePathByte (c : Nat) : Bool := sampleHostByte c ∨ c = 0x2F ∨ c = 0x5F

/-- A stand-in for `url.Parse` on plain absolute URLs
`scheme://host` or `scheme://host/path` (lower-case letters in the scheme, a
non-empty host of letters, digits, dots and dashes, no query, no fragment, no
escapes), where `url.Parse` returns the scheme, host and path as written.
Every other input is refused with an error here, which `url.Parse` need not
do; the theorems below hold for every parser. -/
def sampleParse (raw : GoString) : Except Error URL :=
  let scheme := raw.takeWhile fun c => 0x61 ≤ c ∧ c ≤ 0x7A
  let rest := raw.drop scheme.length
  if scheme = [] then .error (.other 1)
  else match stripLiteral (str "://") rest with
    | none => .error (.other 1)
    | some hostPath =>
      let host := hostPath.takeWhile fun c => sampleHostByte c
      let path := hostPath.drop host.length
      if host = [] then .error (.other 1)
      else if path = [] ∨ (path.head? = some 0x2F ∧ path.all samplePathByte) then
        .ok { Scheme := scheme, Host := host, Path := path, RawQuery := [], Fragment := [] }
      else .error (.other 1)

/-- The sample standard library. -/
def sampleEnv : Env := ⟨sampleParse⟩

/-- A client in its initial state: no token, addressing `host.example`. -/
def sampleClient : ErmesClient :=
  { httpClient := HTTPClient.zero
    scheme := str "https"
    tokenHeaderName := DefaultTokenHeaderName
    tokenOrInitialHost := .host (str "host.example") }

/-- The token with session `s2` pinned to host `h2`. -/
def sampleToken : ErmesToken := ⟨str "s2", str "h2"⟩

/-- A client that holds a token (session `s1` on host `h1`). -/
def sampleTokenClient : ErmesClient :=
  { sampleClient with tokenOrInitialHost := .token ⟨str "s1", str "h1"⟩ }

/-- A request descriptor as `NewErmesRequest` builds it under `sampleEnv`. -/
def sampleRequest : Request :=
  { Method := str "GET"
    URL := some ⟨str "https", str "google.com", [], [], []⟩
    Header := some []
    Body := none
    Host := str "google.com" }

/-- A request descriptor on which the caller has put two values under the
default token header and one under `Accept`. -/
def sampleCallerRequest : Request :=
  { sampleRequest with
    Header := some [(CanonicalMIMEHeaderKey DefaultTokenHeaderName, [str "mine", str "too"]),
                    (str "Accept", [str "text/plain"])] }

/-- A request descriptor whose header map the caller filled by a direct map
write under the default token header name as it is spelled, which is not its
canonical form. -/
def sampleSpelledRequest : Request :=
  { sampleRequest with Header := some [(DefaultTokenHeaderName, [str "mine"])] }

/-- A response with the given status and the given value under the default
token header. -/
def sampleResponse (status : Int) (tokenHeader : GoString) : Response :=
  { StatusCode := status
    Header := some [(CanonicalMIMEHeaderKey DefaultTokenHeaderName, [tokenHeader])]
    Body := str "body" }

/-- A network that answers every request with the given response. -/
def sampleNet (response : Response) : RoundTrip := fun _ _ => .ok response

/-- The wire form of `sampleToken`. -/
def sampleTokenText : GoString := str "\x7b\"sessionId\":\"s2\",\"host\":\"h2\"\x7d"

/-- A network on which every request fails with the given error. -/
def sampleFailingNet (err : Error) : RoundTrip := fun _ _ => .error err

/-- A server that answers by the `Host` of the request: requests for
`host.example` get a 200 response that carries `sampleToken`, every other
request gets an empty 404. -/
def sampleVirtualHostNet : RoundTrip := fun _ req =>
  if req.Host = str "host.example" then .ok (sampleResponse 200 sampleTokenText)
  else .ok (sampleResponse 404 [])

/-- A client whose token names a host with a space in it. -/
def sampleBadHostClient : ErmesClient :=
  { sampleClient with tokenOrInitialHost := .token ⟨str "s1", str "h 2"⟩ }

/-- A token header name other than the default. -/
def sampleCustomName : GoString := str "X-CustomTokenHeaderName"

/-- Options with the custom header name and an initial token. -/
def sampleCustomOptions : ErmesClientOptions :=
  { HttpClient := none
    TokenHeaderName := sampleCustomName
    Scheme := []
    InitialOrigin := []
    InitialToken := some ⟨str "s1", str "h1"⟩ }

/-- The client that `NewErmesClient` builds from `sampleCustomOptions`. -/
def sampleCustomClient : ErmesClient :=
  { sampleTokenClient with tokenHeaderName := sampleCustomName }

/-! # Theorems -/

/-! ## UTF-8 -/

theorem utf8DecodeRune_two (p0 b1 : Nat) (tl : GoString) (h1 : 0xC2 ≤ p0) (h2 : p0 < 0xE0)
    (h3 : 0x80 ≤ b1) (h4 : b1 ≤ 0xBF) :
    utf8DecodeRune (p0 :: b1 :: tl) = (p0 % 32 * 64 + b1 % 64, 2) := by
  have h0 : ¬ p0 < 0x80 := by omega
  have g1 : ¬ (p0 < 0xC2 ∨ 0xF4 < p0) := by omega
  have e1 : ¬ p0 = 0xE0 := by omega
  have e2 : ¬ p0 = 0xF0 := by omega
  have e3 : ¬ p0 = 0xED := by omega
  have e4 : ¬ p0 = 0xF4 := by omega
  have hb1 : ¬ (b1 < 0x80 ∨ 0xBF < b1) := by omega
  simp only [utf8DecodeRune, if_neg h0, if_neg g1, if_pos h2, if_neg e1, if_neg e2, if_neg e3,
    if_neg e4]
  simp [hb1]

theorem utf8DecodeRune_three (p0 b1 b2 : Nat) (tl : GoString) (h1 : 0xE0 ≤ p0) (h2 : p0 < 0xF0)
    (h3 : (if p0 = 0xE0 then 0xA0 else 0x80) ≤ b1)
    (h4 : b1 ≤ (if p0 = 0xED then 0x9F else 0xBF)) (h5 : 0x80 ≤ b2) (h6 : b2 ≤ 0xBF) :
    utf8DecodeRune (p0 :: b1 :: b2 :: tl) = (p0 % 16 * 4096 + b1 % 64 * 64 + b2 % 64, 3) := by
  have h0 : ¬ p0 < 0x80 := by omega
  have g1 : ¬ (p0 < 0xC2 ∨ 0xF4 < p0) := by omega
  have g2 : ¬ p0 < 0xE0 := by omega
  have e2 : ¬ p0 = 0xF0 := by omega
  have e4 : ¬ p0 = 0xF4 := by omega
  have hb1 : ¬ (b1 < (if p0 = 0xE0 then 0xA0 else 0x80)
      ∨ (if p0 = 0xED then 0x9F else 0xBF) < b1) := by omega
  have hb2 : ¬ (b2 < 0x80 ∨ 0xBF < b2) := by omega
  simp only [utf8DecodeRune, if_neg h0, if_neg g1, if_neg g2, if_pos h2, if_neg e2, if_neg e4]
  simp [hb1, hb2]

theorem utf8DecodeRune_four (p0 b1 b2 b3 : Nat) (tl : GoString) (h1 : 0xF0 ≤ p0)
    (h2 : p0 ≤ 0xF4) (h3 : (if p0 = 0xF0 then 0x90 else 0x80) ≤ b1)
    (h4 : b1 ≤ (if p0 = 0xF4 then 0x8F else 0xBF)) (h5 : 0x80 ≤ b2) (h6 : b2 ≤ 0xBF)
    (h7 : 0x80 ≤ b3) (h8 : b3 ≤ 0xBF) :
    utf8DecodeRune (p0 :: b1 :: b2 :: b3 :: tl) =
      (p0 % 8 * 262144 + b1 % 64 * 4096 + b2 % 64 * 64 + b3 % 64, 4) := by
  have h0 : ¬ p0 < 0x80 := by omega
  have g1 : ¬ (p0 < 0xC2 ∨ 0xF4 < p0) := by omega
  have g2 : ¬ p0 < 0xE0 := by omega
  have g3 : ¬ p0 < 0xF0 := by omega
  have e1 : ¬ p0 = 0xE0 := by omega
  have e3 : ¬ p0 = 0xED := by omega
  have hb1 : ¬ (b1 < (if p0 = 0xF0 then 0x90 else 0x80)
      ∨ (if p0 = 0xF4 then 0x8F else 0xBF) < b1) := by omega
  have hb2 : ¬ (b2 < 0x80 ∨ 0xBF < b2) := by omega
  have hb3 : ¬ (b3 < 0x80 ∨ 0xBF < b3) := by omega
  simp only [utf8DecodeRune, if_neg h0, if_neg g1, if_neg g2, if_neg g3, if_neg e1, if_neg e3]
  simp [hb1, hb2, hb3]

/-- The possible outcomes of `utf8DecodeRune` on a non-empty input. -/
theorem utf8DecodeRune_cases (p0 : Nat) (p : GoString) :
    (p0 < 0x80 ∧ utf8DecodeRune (p0 :: p) = (p0, 1)) ∨
    (0x80 ≤ p0 ∧ utf8DecodeRune (p0 :: p) = (RuneError, 1)) ∨
    (∃ b1 tl, p = b1 :: tl ∧ 0xC2 ≤ p0 ∧ p0 < 0xE0 ∧ 0x80 ≤ b1 ∧ b1 ≤ 0xBF) ∨
    (∃ b1 b2 tl, p = b1 :: b2 :: tl ∧ 0xE0 ≤ p0 ∧ p0 < 0xF0 ∧
      (if p0 = 0xE0 then 0xA0 else 0x80) ≤ b1 ∧ b1 ≤ (if p0 = 0xED then 0x9F else 0xBF) ∧
      0x80 ≤ b2 ∧ b2 ≤ 0xBF) ∨
    (∃ b1 b2 b3 tl, p = b1 :: b2 :: b3 :: tl ∧ 0xF0 ≤ p0 ∧ p0 ≤ 0xF4 ∧
      (if p0 = 0xF0 then 0x90 else 0x80) ≤ b1 ∧ b1 ≤ (if p0 = 0xF4 then 0x8F else 0xBF) ∧
      0x80 ≤ b2 ∧ b2 ≤ 0xBF ∧ 0x80 ≤ b3 ∧ b3 ≤ 0xBF) := by
  by_cases h0 : p0 < 0x80
  · left
    exact ⟨h0, by simp [utf8DecodeRune, h0]⟩
  right
  by_cases h1 : p0 < 0xC2 ∨ 0xF4 < p0
  · left
    exact ⟨by omega, by simp [utf8DecodeRune, h0, h1]⟩
  have hlo : 0xC2 ≤ p0 := by omega
  have hhi : p0 ≤ 0xF4 := by omega
  rcases p with _ | ⟨b1, p1⟩
  · left
    refine ⟨by omega, ?_⟩
    simp [utf8DecodeRune, h0, h1]
  by_cases h2 : p0 < 0xE0
  · by_cases hb1 : b1 < 0x80 ∨ 0xBF < b1
    · left
      refine ⟨by omega, ?_⟩
      have e1 : ¬ p0 = 0xE0 := by omega
      have e2 : ¬ p0 = 0xF0 := by omega
      have e3 : ¬ p0 = 0xED := by omega
      have e4 : ¬ p0 = 0xF4 := by omega
      simp [utf8DecodeRune, h0, h1, h2, e1, e2, e3, e4, hb1]
    · right; left
      exact ⟨b1, p1, rfl, hlo, h2, by omega, by omega⟩
  by_cases h3 : p0 < 0xF0
  · by_cases hb1 : b1 < (if p0 = 0xE0 then 0xA0 else 0x80) ∨ (if p0 = 0xED then 0x9F else 0xBF) < b1
    · left
      refine ⟨by omega, ?_⟩
      have e2 : ¬ p0 = 0xF0 := by omega
      have e4 : ¬ p0 = 0xF4 := by omega
      simp only [utf8DecodeRune, if_neg h0, if_neg h1, if_neg h2, if_pos h3, if_neg e2, if_neg e4]
      simp [hb1]
    rcases p1 with _ | ⟨b2, p2⟩
    · left
      refine ⟨by omega, ?_⟩
      simp [utf8DecodeRune, h0, h1, h2, h3]
    by_cases hb2 : b2 < 0x80 ∨ 0xBF < b2
    · left
      refine ⟨by omega, ?_⟩
      have e2 : ¬ p0 = 0xF0 := by omega
      have e4 : ¬ p0 = 0xF4 := by omega
      simp only [utf8DecodeRune, if_neg h0, if_neg h1, if_neg h2, if_pos h3, if_neg e2, if_neg e4]
      simp [hb1, hb2]
    · right; right; left
      exact ⟨b1, b2, p2, rfl, by omega, h3, by omega, by omega, by omega, by omega⟩
  · have e1 : ¬ p0 = 0xE0 := by omega
    have e3 : ¬ p0 = 0xED := by omega
    by_cases hb1 : b1 < (if p0 = 0xF0 then 0x90 else 0x80) ∨ (if p0 = 0xF4 then 0x8F else 0xBF) < b1
    · left
      refine ⟨by omega, ?_⟩
      simp only [utf8DecodeRune, if_neg h0, if_neg h1, if_neg h2, if_neg h3, if_neg e1, if_neg e3]
      simp [hb1]
    rcases p1 with _ | ⟨b2, p2⟩
    · left
      refine ⟨by omega, ?_⟩
      simp [utf8DecodeRune, h0, h1, h2, h3]
    by_cases hb2 : b2 < 0x80 ∨ 0xBF < b2
    · left
      refine ⟨by omega, ?_⟩
      simp only [utf8DecodeRune, if_neg h0, if_neg h1, if_neg h2, if_neg h3, if_neg e1, if_neg e3]
      simp [hb1, hb2]
    rcases p2 with _ | ⟨b3, p3⟩
    · left
      refine ⟨by omega, ?_⟩
      simp [utf8DecodeRune, h0, h1, h2, h3]
    by_cases hb3 : b3 < 0x80 ∨ 0xBF < b3
    · left
      refine ⟨by omega, ?_⟩
      simp only [utf8DecodeRune, if_neg h0, if_neg h1, if_neg h2, if_neg h3, if_neg e1, if_neg e3]
      simp [hb1, hb2, hb3]
    · right; right; right
      exact ⟨b1, b2, b3, p3, rfl, by omega, hhi, by omega, by omega, by omega, by omega,
        by omega, by omega⟩

/-- A well-formed multi-byte encoding at the head of the input: it is what
`utf8AppendRune` writes for the decoded rune, all of its bytes are at least
0x80, and decoding does not look past it. -/
theorem utf8DecodeRune_multibyte (p0 : Nat) (p : GoString) (c size : Nat)
    (h : utf8DecodeRune (p0 :: p) = (c, size)) (h0 : 0x80 ≤ p0)
    (hv : ¬ (c = RuneError ∧ size = 1)) :
    ∃ bs tl, p0 :: p = bs ++ tl ∧ bs.length = size ∧ 2 ≤ size ∧
      utf8AppendRune c = bs ∧ (∀ x ∈ bs, 0x80 ≤ x) ∧ 0x80 ≤ c ∧
      ∀ tail, utf8DecodeRune (bs ++ tail) = (c, size) := by
  rcases utf8DecodeRune_cases p0 p with ⟨h1, -⟩ | ⟨-, h1⟩ | ⟨b1, tl, rfl, h1, h2, h3, h4⟩ |
      ⟨b1, b2, tl, rfl, h1, h2, h3, h4, h5, h6⟩ |
      ⟨b1, b2, b3, tl, rfl, h1, h2, h3, h4, h5, h6, h7, h8⟩
  · omega
  · rw [h1] at h
    cases h
    exact absurd ⟨rfl, rfl⟩ hv
  · rw [utf8DecodeRune_two p0 b1 tl h1 h2 h3 h4] at h
    cases h
    refine ⟨[p0, b1], tl, rfl, rfl, le_refl _, ?_, ?_, by omega,
      fun tail => utf8DecodeRune_two p0 b1 tail h1 h2 h3 h4⟩
    · have e1 : ¬ (p0 % 32 * 64 + b1 % 64 ≤ 0x7F) := by omega
      have e2 : p0 % 32 * 64 + b1 % 64 ≤ 0x7FF := by omega
      simp only [utf8AppendRune, if_neg e1, if_pos e2]
      congr 1
      · omega
      · congr 1
        omega
    · intro x hx
      simp at hx
      omega
  · rw [utf8DecodeRune_three p0 b1 b2 tl h1 h2 h3 h4 h5 h6] at h
    cases h
    have k3 : 0x80 ≤ b1 := by split_ifs at h3 <;> omega
    have k4 : b1 ≤ 0xBF := by split_ifs at h4 <;> omega
    refine ⟨[p0, b1, b2], tl, rfl, rfl, by omega, ?_, ?_, by split_ifs at h3 <;> omega,
      fun tail => utf8DecodeRune_three p0 b1 b2 tail h1 h2 h3 h4 h5 h6⟩
    · have e1 : ¬ (p0 % 16 * 4096 + b1 % 64 * 64 + b2 % 64 ≤ 0x7F) := by
        split_ifs at h3 <;> omega
      have e2 : ¬ (p0 % 16 * 4096 + b1 % 64 * 64 + b2 % 64 ≤ 0x7FF) := by
        split_ifs at h3 <;> omega
      have e3 : ¬ (0x10FFFF < p0 % 16 * 4096 + b1 % 64 * 64 + b2 % 64 ∨
          (0xD800 ≤ p0 % 16 * 4096 + b1 % 64 * 64 + b2 % 64 ∧
            p0 % 16 * 4096 + b1 % 64 * 64 + b2 % 64 ≤ 0xDFFF)) := by
        split_ifs at h4 <;> omega
      have e4 : p0 % 16 * 4096 + b1 % 64 * 64 + b2 % 64 ≤ 0xFFFF := by omega
      simp only [utf8AppendRune, if_neg e1, if_neg e2, if_neg e3, if_pos e4]
      congr 1
      · omega
      · congr 1
        · omega
        · congr 1
          omega
    · intro x hx
      simp at hx
      omega
  · rw [utf8DecodeRune_four p0 b1 b2 b3 tl h1 h2 h3 h4 h5 h6 h7 h8] at h
    cases h
    have k3 : 0x80 ≤ b1 := by split_ifs at h3 <;> omega
    have k4 : b1 ≤ 0xBF := by split_ifs at h4 <;> omega
    refine ⟨[p0, b1, b2, b3], tl, rfl, rfl, by omega, ?_, ?_, by split_ifs at h3 <;> omega,
      fun tail => utf8DecodeRune_four p0 b1 b2 b3 tail h1 h2 h3 h4 h5 h6 h7 h8⟩
    · have e1 : ¬ (p0 % 8 * 262144 + b1 % 64 * 4096 + b2 % 64 * 64 + b3 % 64 ≤ 0x7F) := by
        split_ifs at h3 <;> omega
      have e2 : ¬ (p0 % 8 * 262144 + b1 % 64 * 4096 + b2 % 64 * 64 + b3 % 64 ≤ 0x7FF) := by
        split_ifs at h3 <;> omega
      have e3 : ¬ (0x10FFFF < p0 % 8 * 262144 + b1 % 64 * 4096 + b2 % 64 * 64 + b3 % 64 ∨
          (0xD800 ≤ p0 % 8 * 262144 + b1 % 64 * 4096 + b2 % 64 * 64 + b3 % 64 ∧
            p0 % 8 * 262144 + b1 % 64 * 4096 + b2 % 64 * 64 + b3 % 64 ≤ 0xDFFF)) := by
        split_ifs at h3 h4 <;> omega
      have e4 : ¬ (p0 % 8 * 262144 + b1 % 64 * 4096 + b2 % 64 * 64 + b3 % 64 ≤ 0xFFFF) := by
        split_ifs at h3 <;> omega
      simp only [utf8AppendRune, if_neg e1, if_neg e2, if_neg e3, if_neg e4]
      congr 1
      · omega
      · congr 1
        · omega
        · congr 1
          · omega
          · congr 1
            omega
    · intro x hx
      simp at hx
      omega

/-! ## String literals: what the encoder writes, the decoder reads back -/

theorem hexVal_hexDigit (k : Nat) (h : k < 16) : hexVal (hexDigit k) = some k := by
  interval_cases k <;> decide

theorem scanString_cons_plain (c : Nat) (rest : GoString) (h1 : c ≠ 0x22) (h2 : c ≠ 0x5C)
    (h3 : 0x20 ≤ c) :
    scanString (c :: rest) = (scanString rest).map fun r => (c :: r.1, r.2) := by
  rw [scanString.eq_def]
  have h4 : ¬ c < 0x20 := by omega
  simp only [if_neg h1, if_neg h2, if_neg h4]

theorem scanString_cons_escape (e : Nat) (rest : GoString)
    (he : e = 0x62 ∨ e = 0x66 ∨ e = 0x6E ∨ e = 0x72 ∨ e = 0x74 ∨ e = 0x5C ∨ e = 0x2F ∨ e = 0x22) :
    scanString (0x5C :: e :: rest) = (scanString rest).map fun r => (0x5C :: e :: r.1, r.2) := by
  rw [scanString.eq_def]
  simp only [if_pos he]
  simp

theorem scanString_cons_u (h1 h2 h3 h4 : Nat) (rest : GoString)
    (hh : (hexVal h1).isSome ∧ (hexVal h2).isSome ∧ (hexVal h3).isSome ∧ (hexVal h4).isSome) :
    scanString (0x5C :: 0x75 :: h1 :: h2 :: h3 :: h4 :: rest)
      = (scanString rest).map fun r => (0x5C :: 0x75 :: h1 :: h2 :: h3 :: h4 :: r.1, r.2) := by
  rw [scanString.eq_def]
  simp [hh]

theorem scanString_plain (bs lit rest : GoString)
    (hbs : ∀ x ∈ bs, x ≠ 0x22 ∧ x ≠ 0x5C ∧ 0x20 ≤ x)
    (h : scanString (lit ++ 0x22 :: rest) = some (lit, rest)) :
    scanString (bs ++ (lit ++ 0x22 :: rest)) = some (bs ++ lit, rest) := by
  induction bs with
  | nil => simpa using h
  | cons x bs ih =>
    have hx := hbs x (by simp)
    have ih1 := ih (fun y hy => hbs y (by simp [hy]))
    rw [List.cons_append, scanString_cons_plain x _ hx.1 hx.2.1 hx.2.2, ih1]
    rfl

theorem scanString_escapeByte (b : Nat) (lit rest : GoString) (hb : b < 0x80)
    (h : scanString (lit ++ 0x22 :: rest) = some (lit, rest)) :
    scanString (escapeByte b ++ (lit ++ 0x22 :: rest)) = some (escapeByte b ++ lit, rest) := by
  have h1 := hexVal_hexDigit (b / 16) (by omega)
  have h2 := hexVal_hexDigit (b % 16) (by omega)
  have h0 : hexVal 0x30 = some 0 := by decide
  unfold escapeByte
  split_ifs with c1 c2 c3 c4 c5 c6
  · rw [List.cons_append, List.cons_append, List.nil_append,
      scanString_cons_escape b _ (by omega), h]
    rfl
  · rw [List.cons_append, List.cons_append, List.nil_append,
      scanString_cons_escape _ _ (by decide), h]
    rfl
  · rw [List.cons_append, List.cons_append, List.nil_append,
      scanString_cons_escape _ _ (by decide), h]
    rfl
  · rw [List.cons_append, List.cons_append, List.nil_append,
      scanString_cons_escape _ _ (by decide), h]
    rfl
  · rw [List.cons_append, List.cons_append, List.nil_append,
      scanString_cons_escape _ _ (by decide), h]
    rfl
  · rw [List.cons_append, List.cons_append, List.nil_append,
      scanString_cons_escape _ _ (by decide), h]
    rfl
  · simp only [List.cons_append, List.nil_append]
    rw [scanString_cons_u _ _ _ _ _ (by simp [h0, h1, h2]), h]
    rfl

theorem scanString_lineSep (c : Nat) (lit rest : GoString)
    (h : scanString (lit ++ 0x22 :: rest) = some (lit, rest)) :
    scanString ([0x5C, 0x75, 0x32, 0x30, 0x32, hexDigit (c % 16)] ++ (lit ++ 0x22 :: rest))
      = some ([0x5C, 0x75, 0x32, 0x30, 0x32, hexDigit (c % 16)] ++ lit, rest) := by
  have h0 : hexVal 0x30 = some 0 := by decide
  have h2 : hexVal 0x32 = some 2 := by decide
  have h1 := hexVal_hexDigit (c % 16) (by omega)
  simp only [List.cons_append, List.nil_append]
  rw [scanString_cons_u _ _ _ _ _ (by simp [h0, h1, h2]), h]
  rfl

theorem unquoteLoop_succ_cons (fuel c : Nat) (rest : GoString) :
    unquoteLoop (fuel + 1) (c :: rest) =
    if c = 0x5C then
      match rest with
      | [] => none
      | e :: rest1 =>
        if e = 0x22 ∨ e = 0x5C ∨ e = 0x2F ∨ e = 0x27 then
          (unquoteLoop fuel rest1).map fun t => e :: t
        else if e = 0x62 then (unquoteLoop fuel rest1).map fun t => 0x08 :: t
        else if e = 0x66 then (unquoteLoop fuel rest1).map fun t => 0x0C :: t
        else if e = 0x6E then (unquoteLoop fuel rest1).map fun t => 0x0A :: t
        else if e = 0x72 then (unquoteLoop fuel rest1).map fun t => 0x0D :: t
        else if e = 0x74 then (unquoteLoop fuel rest1).map fun t => 0x09 :: t
        else if e = 0x75 then
          match getu4 (c :: rest) with
          | none => none
          | some rr =>
            let after := rest.drop 5
            if 0xD800 ≤ rr ∧ rr < 0xE000 then
              match getu4 after with
              | some rr1 =>
                if rr < 0xDC00 ∧ 0xDC00 ≤ rr1 ∧ rr1 < 0xE000 then
                  (unquoteLoop fuel (after.drop 6)).map fun t =>
                    utf8AppendRune ((rr - 0xD800) * 1024 + (rr1 - 0xDC00) + 0x10000) ++ t
                else (unquoteLoop fuel after).map fun t => utf8AppendRune RuneError ++ t
              | none => (unquoteLoop fuel after).map fun t => utf8AppendRune RuneError ++ t
            else (unquoteLoop fuel after).map fun t => utf8AppendRune rr ++ t
        else none
    else if c = 0x22 ∨ c < 0x20 then none
    else if c < 0x80 then (unquoteLoop fuel rest).map fun t => c :: t
    else
      let (rr, size) := utf8DecodeRune (c :: rest)
      (unquoteLoop fuel ((c :: rest).drop size)).map fun t => utf8AppendRune rr ++ t := by
  rfl

theorem unquoteLoop_cons_plain (f c : Nat) (rest : GoString)
    (hc : c ≠ 0x22 ∧ c ≠ 0x5C ∧ 0x20 ≤ c ∧ c < 0x80) :
    unquoteLoop (f + 1) (c :: rest) = (unquoteLoop f rest).map fun t => c :: t := by
  rw [unquoteLoop_succ_cons]
  have h3 : ¬ (c = 0x22 ∨ c < 0x20) := by omega
  simp only [if_neg hc.2.1, if_neg h3, if_pos hc.2.2.2]

theorem unquoteLoop_cons_escape (f e v : Nat) (rest : GoString)
    (he : (e = 0x22 ∧ v = 0x22) ∨ (e = 0x5C ∧ v = 0x5C) ∨ (e = 0x62 ∧ v = 0x08)
      ∨ (e = 0x66 ∧ v = 0x0C) ∨ (e = 0x6E ∧ v = 0x0A) ∨ (e = 0x72 ∧ v = 0x0D)
      ∨ (e = 0x74 ∧ v = 0x09)) :
    unquoteLoop (f + 1) (0x5C :: e :: rest) = (unquoteLoop f rest).map fun t => v :: t := by
  rw [unquoteLoop_succ_cons]
  rcases he with ⟨rfl, rfl⟩ | ⟨rfl, rfl⟩ | ⟨rfl, rfl⟩ | ⟨rfl, rfl⟩ | ⟨rfl, rfl⟩ | ⟨rfl, rfl⟩ |
    ⟨rfl, rfl⟩ <;> simp

theorem unquoteLoop_cons_u (f h1 h2 h3 h4 rr : Nat) (rest : GoString)
    (hg : getu4 (0x5C :: 0x75 :: h1 :: h2 :: h3 :: h4 :: rest) = some rr)
    (hr : ¬ (0xD800 ≤ rr ∧ rr < 0xE000)) :
    unquoteLoop (f + 1) (0x5C :: 0x75 :: h1 :: h2 :: h3 :: h4 :: rest)
      = (unquoteLoop f rest).map fun t => utf8AppendRune rr ++ t := by
  rw [unquoteLoop_succ_cons]
  simp [hg, hr]

theorem unquoteLoop_cons_multibyte (f c rr size : Nat) (rest : GoString) (hc : 0x80 ≤ c)
    (hd : utf8DecodeRune (c :: rest) = (rr, size)) :
    unquoteLoop (f + 1) (c :: rest)
      = (unquoteLoop f ((c :: rest).drop size)).map fun t => utf8AppendRune rr ++ t := by
  rw [unquoteLoop_succ_cons]
  have h1 : ¬ c = 0x5C := by omega
  have h2 : ¬ (c = 0x22 ∨ c < 0x20) := by omega
  have h3 : ¬ c < 0x80 := by omega
  simp only [if_neg h1, if_neg h2, if_neg h3, hd]

theorem unquoteLoop_plain (c : Nat) (lit t : GoString)
    (hc : c ≠ 0x22 ∧ c ≠ 0x5C ∧ 0x20 ≤ c ∧ c < 0x80)
    (h : ∀ f, lit.length ≤ f → unquoteLoop f lit = some t) :
    ∀ f, (c :: lit).length ≤ f → unquoteLoop f (c :: lit) = some (c :: t) := by
  intro f hf
  cases f with
  | zero => simp at hf
  | succ f =>
    rw [unquoteLoop_cons_plain f c lit hc, h f (by simpa using hf)]
    rfl

theorem getu4_hex (a b c d : Nat) (rest : GoString) (ha : a < 16) (hb : b < 16) (hc : c < 16)
    (hd : d < 16) :
    getu4 (0x5C :: 0x75 :: hexDigit a :: hexDigit b :: hexDigit c :: hexDigit d :: rest)
      = some (((a * 16 + b) * 16 + c) * 16 + d) := by
  simp [getu4, hexVal_hexDigit, ha, hb, hc, hd]

theorem unquoteLoop_escapeByte (b : Nat) (lit t : GoString) (hb : b < 0x80)
    (h : ∀ f, lit.length ≤ f → unquoteLoop f lit = some t) :
    ∀ f, (escapeByte b ++ lit).length ≤ f →
      unquoteLoop f (escapeByte b ++ lit) = some (b :: t) := by
  intro f hf
  cases f with
  | zero =>
    unfold escapeByte at hf
    split_ifs at hf <;> simp at hf
  | succ f =>
    have hl : unquoteLoop f lit = some t := by
      apply h
      unfold escapeByte at hf
      split_ifs at hf <;> simp at hf <;> omega
    unfold escapeByte
    split_ifs with c1 c2 c3 c4 c5 c6
    · rw [List.cons_append, List.cons_append, List.nil_append,
        unquoteLoop_cons_escape f b b lit (by omega), hl]
      rfl
    · rw [List.cons_append, List.cons_append, List.nil_append,
        unquoteLoop_cons_escape f _ b lit (by omega), hl]
      rfl
    · rw [List.cons_append, List.cons_append, List.nil_append,
        unquoteLoop_cons_escape f _ b lit (by omega), hl]
      rfl
    · rw [List.cons_append, List.cons_append, List.nil_append,
        unquoteLoop_cons_escape f _ b lit (by omega), hl]
      rfl
    · rw [List.cons_append, List.cons_append, List.nil_append,
        unquoteLoop_cons_escape f _ b lit (by omega), hl]
      rfl
    · rw [List.cons_append, List.cons_append, List.nil_append,
        unquoteLoop_cons_escape f _ b lit (by omega), hl]
      rfl
    · have hg := getu4_hex 0 0 (b / 16) (b % 16) lit (by omega) (by omega) (by omega) (by omega)
      have e2 : ((0 * 16 + 0) * 16 + b / 16) * 16 + b % 16 = b := by omega
      rw [e2] at hg
      have e0 : hexDigit 0 = 0x30 := by decide
      rw [e0] at hg
      simp only [List.cons_append, List.nil_append]
      rw [unquoteLoop_cons_u f _ _ _ _ b lit hg (by omega), hl]
      have e3 : b ≤ 0x7F := by omega
      simp [utf8AppendRune, e3]

theorem unquoteLoop_lineSep (c : Nat) (lit t : GoString) (hc : c = 0x2028 ∨ c = 0x2029)
    (h : ∀ f, lit.length ≤ f → unquoteLoop f lit = some t) :
    ∀ f, ([0x5C, 0x75, 0x32, 0x30, 0x32, hexDigit (c % 16)] ++ lit).length ≤ f →
      unquoteLoop f ([0x5C, 0x75, 0x32, 0x30, 0x32, hexDigit (c % 16)] ++ lit)
        = some (utf8AppendRune c ++ t) := by
  intro f hf
  cases f with
  | zero => simp at hf
  | succ f =>
    have hl : unquoteLoop f lit = some t := h f (by simp at hf; omega)
    have hg := getu4_hex 2 0 2 (c % 16) lit (by omega) (by omega) (by omega) (by omega)
    have e2 : ((2 * 16 + 0) * 16 + 2) * 16 + c % 16 = c := by omega
    rw [e2] at hg
    have e0 : hexDigit 0 = 0x30 := by decide
    have e1 : hexDigit 2 = 0x32 := by decide
    rw [e0, e1] at hg
    simp only [List.cons_append, List.nil_append]
    rw [unquoteLoop_cons_u f _ _ _ _ c lit hg (by omega), hl]
    rfl

theorem unquoteLoop_multibyte (bs lit t : GoString) (c : Nat)
    (hbs : ∀ x ∈ bs, 0x80 ≤ x) (hlen : 2 ≤ bs.length)
    (hd : utf8DecodeRune (bs ++ lit) = (c, bs.length)) (ha : utf8AppendRune c = bs)
    (h : ∀ f, lit.length ≤ f → unquoteLoop f lit = some t) :
    ∀ f, (bs ++ lit).length ≤ f → unquoteLoop f (bs ++ lit) = some (bs ++ t) := by
  intro f hf
  cases f with
  | zero =>
    simp only [List.length_append] at hf
    omega
  | succ f =>
    have hl : unquoteLoop f lit = some t := h f (by
      simp only [List.length_append] at hf
      omega)
    rcases bs with _ | ⟨b0, bs1⟩
    · simp at hlen
    · have hb0 := hbs b0 (by simp)
      rw [List.cons_append] at hd ⊢
      rw [unquoteLoop_cons_multibyte f b0 c _ _ hb0 hd]
      have e1 : List.drop (b0 :: bs1).length (b0 :: (bs1 ++ lit)) = lit := by
        rw [← List.cons_append, List.drop_left]
      rw [e1, hl, ha]
      rfl

theorem appendStringLoop_succ_cons (fuel b : Nat) (rest : GoString) :
    appendStringLoop (fuel + 1) (b :: rest) =
    if b < 0x80 then
      (if htmlSafeSet b then [b] else escapeByte b) ++ appendStringLoop fuel rest
    else
      if (utf8DecodeRune (b :: rest)).1 = RuneError ∧ (utf8DecodeRune (b :: rest)).2 = 1 then
        [0x5C, 0x75, 0x66, 0x66, 0x66, 0x64] ++ appendStringLoop fuel rest
      else if (utf8DecodeRune (b :: rest)).1 = 0x2028 ∨ (utf8DecodeRune (b :: rest)).1 = 0x2029 then
        [0x5C, 0x75, 0x32, 0x30, 0x32, hexDigit ((utf8DecodeRune (b :: rest)).1 % 16)]
          ++ appendStringLoop fuel ((b :: rest).drop (utf8DecodeRune (b :: rest)).2)
      else
        (b :: rest).take (utf8DecodeRune (b :: rest)).2
          ++ appendStringLoop fuel ((b :: rest).drop (utf8DecodeRune (b :: rest)).2) := by
  rfl

theorem utf8ValidLoop_succ_cons (fuel b : Nat) (rest : GoString) :
    utf8ValidLoop (fuel + 1) (b :: rest) =
    if (utf8DecodeRune (b :: rest)).1 = RuneError ∧ (utf8DecodeRune (b :: rest)).2 = 1 then false
    else utf8ValidLoop fuel ((b :: rest).drop (utf8DecodeRune (b :: rest)).2) := by
  rfl

theorem appendStringLoop_nil (fuel : Nat) : appendStringLoop fuel [] = [] := by
  cases fuel <;> rfl

theorem unquoteLoop_nil (fuel : Nat) : unquoteLoop fuel [] = some [] := by
  cases fuel <;> rfl

theorem scanString_quote (rest : GoString) : scanString (0x22 :: rest) = some ([], rest) := by
  rw [scanString.eq_def]
  simp

/-- What `appendString` writes between the quotes for a valid UTF-8 string is
scanned as one string literal and unquoted to the string itself. -/
theorem appendStringLoop_roundtrip : ∀ (n : Nat) (s : GoString), s.length ≤ n →
    utf8ValidLoop n s = true →
    (∀ rest, scanString (appendStringLoop n s ++ 0x22 :: rest)
        = some (appendStringLoop n s, rest)) ∧
    (∀ f, (appendStringLoop n s).length ≤ f →
        unquoteLoop f (appendStringLoop n s) = some s) := by
  intro n
  induction n with
  | zero =>
    intro s hs _
    have : s = [] := List.length_eq_zero.mp (by omega)
    subst this
    exact ⟨fun rest => by simpa [appendStringLoop_nil] using scanString_quote rest,
      fun f _ => by simpa [appendStringLoop_nil] using unquoteLoop_nil f⟩
  | succ n ih =>
    intro s hs hvalid
    rcases s with _ | ⟨b, rest⟩
    · exact ⟨fun rest => by simpa [appendStringLoop_nil] using scanString_quote rest,
        fun f _ => by simpa [appendStringLoop_nil] using unquoteLoop_nil f⟩
    rw [utf8ValidLoop_succ_cons] at hvalid
    rw [appendStringLoop_succ_cons]
    by_cases hb : b < 0x80
    · have hd : utf8DecodeRune (b :: rest) = (b, 1) := by simp [utf8DecodeRune, hb]
      have hne : b ≠ RuneError := by
        unfold RuneError
        omega
      have hv2 : utf8ValidLoop n rest = true := by
        rw [hd] at hvalid
        simpa [hne] using hvalid
      obtain ⟨ih1, ih2⟩ := ih rest (by simpa using hs) hv2
      rw [if_pos hb]
      by_cases hsafe : htmlSafeSet b = true
      · rw [if_pos hsafe]
        have hc : b ≠ 0x22 ∧ b ≠ 0x5C ∧ 0x20 ≤ b ∧ b < 0x80 := by
          simp [htmlSafeSet] at hsafe
          omega
        refine ⟨fun r => ?_, ?_⟩
        · rw [List.append_assoc]
          exact scanString_plain [b] _ r (by simpa using ⟨hc.1, hc.2.1, hc.2.2.1⟩) (ih1 r)
        · exact unquoteLoop_plain b _ rest hc ih2
      · rw [if_neg hsafe]
        refine ⟨fun r => ?_, ?_⟩
        · rw [List.append_assoc]
          exact scanString_escapeByte b _ r hb (ih1 r)
        · exact unquoteLoop_escapeByte b _ rest hb ih2
    · rw [if_neg hb]
      rcases hdp : utf8DecodeRune (b :: rest) with ⟨c, size⟩
      simp only [hdp] at hvalid ⊢
      by_cases herr : c = RuneError ∧ size = 1
      · rw [if_pos herr] at hvalid
        cases hvalid
      rw [if_neg herr] at hvalid
      rw [if_neg herr]
      obtain ⟨bs, tl, hsplit, hlen, hsize, happ, hbytes, hc80, hdec⟩ :=
        utf8DecodeRune_multibyte b rest c size hdp (by omega) herr
      have htl : tl.length ≤ n := by
        have := congrArg List.length hsplit
        simp only [List.length_cons, List.length_append] at this
        simp only [List.length_cons] at hs
        omega
      rw [hsplit] at hvalid ⊢
      subst hlen
      rw [List.drop_left] at hvalid
      rw [List.drop_left, List.take_left]
      obtain ⟨ih1, ih2⟩ := ih tl htl hvalid
      by_cases hsep : c = 0x2028 ∨ c = 0x2029
      · rw [if_pos hsep]
        refine ⟨fun r => ?_, ?_⟩
        · rw [List.append_assoc]
          exact scanString_lineSep _ _ r (ih1 r)
        · rw [← happ]
          exact unquoteLoop_lineSep _ _ tl hsep ih2
      · rw [if_neg hsep]
        refine ⟨fun r => ?_, ?_⟩
        · rw [List.append_assoc]
          refine scanString_plain bs _ r (fun x hx => ?_) (ih1 r)
          have := hbytes x hx
          omega
        · exact unquoteLoop_multibyte bs _ tl _ hbytes hsize (hdec _) happ ih2

/-! ## The iteration bounds are never reached -/

theorem utf8DecodeRune_size_pos (b : Nat) (rest : GoString) :
    1 ≤ (utf8DecodeRune (b :: rest)).2 := by
  rcases utf8DecodeRune_cases b rest with ⟨-, h⟩ | ⟨-, h⟩ | ⟨b1, tl, rfl, h1, h2, h3, h4⟩ |
      ⟨b1, b2, tl, rfl, h1, h2, h3, h4, h5, h6⟩ |
      ⟨b1, b2, b3, tl, rfl, h1, h2, h3, h4, h5, h6, h7, h8⟩
  · rw [h]
  · rw [h]
  · rw [utf8DecodeRune_two b b1 tl h1 h2 h3 h4]
    simp
  · rw [utf8DecodeRune_three b b1 b2 tl h1 h2 h3 h4 h5 h6]
    simp
  · rw [utf8DecodeRune_four b b1 b2 b3 tl h1 h2 h3 h4 h5 h6 h7 h8]
    simp

theorem length_drop_decoded (b : Nat) (rest : GoString) :
    ((b :: rest).drop (utf8DecodeRune (b :: rest)).2).length ≤ rest.length := by
  have := utf8DecodeRune_size_pos b rest
  simp only [List.length_drop, List.length_cons]
  omega

/-- The bound of `appendStringLoop` is never reached when it is at least the
length of the input: any two such bounds give the same text. -/
theorem appendStringLoop_fuel : ∀ (f1 f2 : Nat) (s : GoString), s.length ≤ f1 → s.length ≤ f2 →
    appendStringLoop f1 s = appendStringLoop f2 s := by
  intro f1
  induction f1 with
  | zero =>
    intro f2 s h1 _
    have : s = [] := List.length_eq_zero.mp (by omega)
    subst this
    rw [appendStringLoop_nil, appendStringLoop_nil]
  | succ g1 ih =>
    intro f2 s h1 h2
    rcases s with _ | ⟨b, rest⟩
    · rw [appendStringLoop_nil, appendStringLoop_nil]
    · obtain ⟨g2, rfl⟩ : ∃ g2, f2 = g2 + 1 := ⟨f2 - 1, by simp at h2; omega⟩
      simp only [List.length_cons] at h1 h2
      have key : ∀ X : GoString, X.length ≤ rest.length →
          appendStringLoop g1 X = appendStringLoop g2 X :=
        fun X hX => ih g2 X (by omega) (by omega)
      rw [appendStringLoop_succ_cons, appendStringLoop_succ_cons,
        key rest (le_refl _), key _ (length_drop_decoded b rest)]

/-- The bound of `utf8ValidLoop` is never reached when it is at least the
length of the input. -/
theorem utf8ValidLoop_fuel : ∀ (f1 f2 : Nat) (s : GoString), s.length ≤ f1 → s.length ≤ f2 →
    utf8ValidLoop f1 s = utf8ValidLoop f2 s := by
  intro f1
  induction f1 with
  | zero =>
    intro f2 s h1 _
    have : s = [] := List.length_eq_zero.mp (by omega)
    subst this
    cases f2 <;> rfl
  | succ g1 ih =>
    intro f2 s h1 h2
    rcases s with _ | ⟨b, rest⟩
    · cases f2 <;> rfl
    · obtain ⟨g2, rfl⟩ : ∃ g2, f2 = g2 + 1 := ⟨f2 - 1, by simp at h2; omega⟩
      simp only [List.length_cons] at h1 h2
      rw [utf8ValidLoop_succ_cons, utf8ValidLoop_succ_cons,
        ih g2 _ (le_trans (length_drop_decoded b rest) (by omega))
          (le_trans (length_drop_decoded b rest) (by omega))]

/-- The bound of `unquoteLoop` is never reached when it is at least the length
of the literal. -/
theorem unquoteLoop_fuel : ∀ (f1 f2 : Nat) (s : GoString), s.length ≤ f1 → s.length ≤ f2 →
    unquoteLoop f1 s = unquoteLoop f2 s := by
  intro f1
  induction f1 with
  | zero =>
    intro f2 s h1 _
    have : s = [] := List.length_eq_zero.mp (by omega)
    subst this
    rw [unquoteLoop_nil, unquoteLoop_nil]
  | succ g1 ih =>
    intro f2 s h1 h2
    rcases s with _ | ⟨c, rest⟩
    · rw [unquoteLoop_nil, unquoteLoop_nil]
    · obtain ⟨g2, rfl⟩ : ∃ g2, f2 = g2 + 1 := ⟨f2 - 1, by simp at h2; omega⟩
      simp only [List.length_cons] at h1 h2
      have key : ∀ X : GoString, X.length ≤ rest.length →
          unquoteLoop g1 X = unquoteLoop g2 X :=
        fun X hX => ih g2 X (by omega) (by omega)
      have k1 := key rest (le_refl _)
      have k2 := key (rest.drop 5) (by simp only [List.length_drop]; omega)
      have k3 := key ((rest.drop 5).drop 6) (by simp only [List.length_drop]; omega)
      have k4 := key _ (length_drop_decoded c rest)
      rw [unquoteLoop_succ_cons, unquoteLoop_succ_cons]
      rcases hd : utf8DecodeRune (c :: rest) with ⟨rr, size⟩
      rw [hd] at k4
      simp only [] at k4
      rcases rest with _ | ⟨e, rest1⟩
      · simp only [k1, k4]
      · have k5 := key rest1 (by simp)
        simp only [k1, k2, k3, k4, k5]

theorem foldNameLoop_fuel : ∀ (f1 f2 : Nat) (s : GoString), s.length ≤ f1 → s.length ≤ f2 →
    foldNameLoop f1 s = foldNameLoop f2 s := by
  intro f1
  induction f1 with
  | zero =>
    intro f2 s h1 _
    have : s = [] := List.length_eq_zero.mp (by omega)
    subst this
    cases f2 <;> rfl
  | succ g1 ih =>
    intro f2 s h1 h2
    rcases s with _ | ⟨c, rest⟩
    · cases f2 <;> rfl
    · obtain ⟨g2, rfl⟩ : ∃ g2, f2 = g2 + 1 := ⟨f2 - 1, by simp at h2; omega⟩
      simp only [List.length_cons] at h1 h2
      have k1 := ih g2 rest (by omega) (by omega)
      have k4 := ih g2 _ (le_trans (length_drop_decoded c rest) (by omega))
        (le_trans (length_drop_decoded c rest) (by omega))
      rcases hd : utf8DecodeRune (c :: rest) with ⟨rr, size⟩
      rw [hd] at k4
      simp only [] at k4
      simp only [foldNameLoop, hd, k1, k4]

theorem skipSpace_length (s : GoString) : (skipSpace s).length ≤ s.length := by
  induction s with
  | nil => simp [skipSpace]
  | cons c rest ih =>
    simp only [skipSpace]
    split
    · simp only [List.length_cons]
      omega
    · exact le_refl _

theorem skipDigits_length (s : GoString) : (skipDigits s).length ≤ s.length := by
  induction s with
  | nil => simp [skipDigits]
  | cons c rest ih =>
    simp only [skipDigits]
    split
    · simp only [List.length_cons]
      omega
    · exact le_refl _

theorem scanString_length : ∀ (n : Nat) (s lit rest : GoString), s.length ≤ n →
    scanString s = some (lit, rest) → rest.length < s.length := by
  intro n
  induction n with
  | zero =>
    intro s lit rest hs h
    have : s = [] := List.length_eq_zero.mp (by omega)
    subst this
    rw [scanString.eq_def] at h
    cases h
  | succ n ih =>
    intro s lit rest hs h
    have step : ∀ (X : GoString) (g : GoString × GoString → GoString × GoString),
        (scanString X).map g = some (lit, rest) →
        (∀ r, (g r).2 = r.2) → X.length < s.length → rest.length < s.length := by
      intro X g hm hg hX
      rcases hx : scanString X with _ | ⟨l1, r1⟩
      · rw [hx] at hm
        cases hm
      · rw [hx] at hm
        simp only [Option.map_some', Option.some.injEq] at hm
        have h3 : rest = r1 := by simpa [hm] using hg (l1, r1)
        subst h3
        have := ih X l1 rest (by omega) hx
        omega
    rw [scanString.eq_def] at h
    rcases s with _ | ⟨c, r⟩
    · cases h
    simp only [] at h
    split_ifs at h with c1 c2 c3
    · cases h
      simp
    · rcases r with _ | ⟨e, r1⟩
      · cases h
      simp only [] at h
      split_ifs at h with d1 d2
      · exact step r1 _ h (fun _ => rfl) (by simp; omega)
      · rcases r1 with _ | ⟨x1, _ | ⟨x2, _ | ⟨x3, _ | ⟨x4, r5⟩⟩⟩⟩
        · cases h
        · cases h
        · cases h
        · cases h
        · simp only [] at h
          split_ifs at h
          exact step r5 _ h (fun _ => rfl) (by simp; omega)
    · exact step r _ h (fun _ => rfl) (by simp)

theorem stripLiteral_length : ∀ (lit s r : GoString), stripLiteral lit s = some r →
    r.length ≤ s.length := by
  intro lit
  induction lit with
  | nil =>
    intro s r h
    cases s <;> simp [stripLiteral] at h <;> subst h <;> exact le_refl _
  | cons l lit ih =>
    intro s r h
    rcases s with _ | ⟨c, s⟩
    · simp [stripLiteral] at h
    · simp only [stripLiteral] at h
      split_ifs at h
      have := ih s r h
      simp only [List.length_cons]
      omega

theorem scanExponent_length (s r : GoString) (h : scanExponent s = some r) :
    r.length ≤ s.length := by
  rcases s with _ | ⟨e, t⟩
  · simp [scanExponent] at h
    subst h
    exact le_refl _
  · simp only [scanExponent] at h
    split_ifs at h with c1
    · rcases t with _ | ⟨sg, t1⟩
      · simp at h
      · simp only [] at h
        split at h
        · cases h
        · rename_i d r2 heq
          split_ifs at h with c3
          cases h
          have h5 := skipDigits_length r2
          have h6 : (d :: r2).length ≤ (sg :: t1).length := by
            split_ifs at heq with c2
            · rw [← heq]
              simp
            · rw [← heq]
          simp only [List.length_cons] at h6 ⊢
          omega
    · cases h
      exact le_refl _

theorem scanFraction_length (s r : GoString) (h : scanFraction s = some r) :
    r.length ≤ s.length := by
  rcases s with _ | ⟨c, t⟩
  · simp [scanFraction] at h
    subst h
    exact le_refl _
  · simp only [scanFraction] at h
    split_ifs at h with c1
    · rcases t with _ | ⟨d, t1⟩
      · cases h
      · simp only [] at h
        split_ifs at h
        have h5 := scanExponent_length _ _ h
        have h6 := skipDigits_length t1
        simp only [List.length_cons]
        omega
    · exact scanExponent_length _ _ h

theorem scanNumber_length (s r : GoString) (h : scanNumber s = some r) :
    r.length < s.length := by
  unfold scanNumber at h
  split at h
  · cases h
  · rename_i c t heq
    have h6 : (c :: t).length ≤ s.length := by
      rcases s with _ | ⟨m, s1⟩
      · cases heq
      · simp only [] at heq
        split_ifs at heq
        · rw [← heq]
          simp
        · rw [← heq]
    simp only [List.length_cons] at h6
    split_ifs at h
    · have := scanFraction_length _ _ h
      omega
    · have := scanFraction_length _ _ h
      have := skipDigits_length t
      omega

/-- A successful parse consumes at least one byte. -/
theorem parse_length : ∀ F : Nat,
    (∀ d s v rest, parseValue F d s = some (v, rest) → rest.length < s.length) ∧
    (∀ d s ms rest, parseMembers F d s = some (ms, rest) → rest.length < s.length) ∧
    (∀ d s es rest, parseElements F d s = some (es, rest) → rest.length < s.length) := by
  intro F
  induction F with
  | zero =>
    refine ⟨?_, ?_, ?_⟩ <;> intro d s v rest h
    · rw [parseValue] at h
      cases h
    · rw [parseMembers] at h
      cases h
    · rw [parseElements] at h
      cases h
  | succ F ih =>
    obtain ⟨ihV, ihM, ihE⟩ := ih
    refine ⟨?_, ?_, ?_⟩
    · intro d s v rest h
      rw [parseValue] at h
      have hsk := skipSpace_length s
      rcases hk : skipSpace s with _ | ⟨c, r⟩
      · rw [hk] at h
        cases h
      rw [hk] at h hsk
      simp only [List.length_cons] at hsk
      simp only [] at h
      split_ifs at h with c1 c2 c3 c4 c5 c6 c7 c8 c9
      · -- object
        have hsk2 := skipSpace_length r
        rcases hk2 : skipSpace r with _ | ⟨c1, r1⟩
        · rw [hk2] at h
          cases h
        rw [hk2] at h hsk2
        simp only [List.length_cons] at hsk2
        simp only [] at h
        split_ifs at h
        · cases h
          omega
        · rcases hm : parseMembers F (d + 1) (c1 :: r1) with _ | ⟨ms, r2⟩
          · rw [hm] at h
            cases h
          · rw [hm] at h
            cases h
            have := ihM _ _ _ _ hm
            simp only [List.length_cons] at this
            dsimp only
            omega
      · -- array
        have hsk2 := skipSpace_length r
        rcases hk2 : skipSpace r with _ | ⟨c1, r1⟩
        · rw [hk2] at h
          cases h
        rw [hk2] at h hsk2
        simp only [List.length_cons] at hsk2
        simp only [] at h
        split_ifs at h
        · cases h
          omega
        · rcases hm : parseElements F (d + 1) (c1 :: r1) with _ | ⟨ms, r2⟩
          · rw [hm] at h
            cases h
          · rw [hm] at h
            cases h
            have := ihE _ _ _ _ hm
            simp only [List.length_cons] at this
            dsimp only
            omega
      · -- string
        rcases hs : scanString r with _ | ⟨lit, r1⟩
        · rw [hs] at h
          cases h
        · rw [hs] at h
          simp only [] at h
          rcases hu : unquote lit with _ | t
          · rw [hu] at h
            cases h
          · rw [hu] at h
            cases h
            have := scanString_length _ _ _ _ (le_refl _) hs
            omega
      · -- number
        rcases hn : scanNumber (c :: r) with _ | r1
        · rw [hn] at h
          cases h
        · rw [hn] at h
          cases h
          have := scanNumber_length _ _ hn
          simp only [List.length_cons] at this
          omega
      · rcases hn : stripLiteral [0x72, 0x75, 0x65] r with _ | r1
        · rw [hn] at h
          cases h
        · rw [hn] at h
          cases h
          have := stripLiteral_length _ _ _ hn
          omega
      · rcases hn : stripLiteral [0x61, 0x6C, 0x73, 0x65] r with _ | r1
        · rw [hn] at h
          cases h
        · rw [hn] at h
          cases h
          have := stripLiteral_length _ _ _ hn
          omega
      · rcases hn : stripLiteral [0x75, 0x6C, 0x6C] r with _ | r1
        · rw [hn] at h
          cases h
        · rw [hn] at h
          cases h
          have := stripLiteral_length _ _ _ hn
          omega
    · intro d s ms rest h
      rw [parseMembers] at h
      have hsk := skipSpace_length s
      rcases hk : skipSpace s with _ | ⟨q, r⟩
      · rw [hk] at h
        cases h
      rw [hk] at h hsk
      simp only [List.length_cons] at hsk
      simp only [] at h
      split_ifs at h
      rcases hs : scanString r with _ | ⟨lit, r1⟩
      · rw [hs] at h
        cases h
      rw [hs] at h
      simp only [] at h
      have hl1 := scanString_length _ _ _ _ (le_refl _) hs
      rcases hu : unquote lit with _ | key
      · rw [hu] at h
        cases h
      rw [hu] at h
      simp only [] at h
      have hsk2 := skipSpace_length r1
      rcases hk2 : skipSpace r1 with _ | ⟨colon, r2⟩
      · rw [hk2] at h
        cases h
      rw [hk2] at h hsk2
      simp only [List.length_cons] at hsk2
      simp only [] at h
      split_ifs at h
      rcases hv : parseValue F d r2 with _ | ⟨v, r3⟩
      · rw [hv] at h
        cases h
      rw [hv] at h
      simp only [] at h
      have hl2 := ihV _ _ _ _ hv
      have hsk3 := skipSpace_length r3
      rcases hk3 : skipSpace r3 with _ | ⟨dl, r4⟩
      · rw [hk3] at h
        cases h
      rw [hk3] at h hsk3
      simp only [List.length_cons] at hsk3
      simp only [] at h
      split_ifs at h
      · rcases hm : parseMembers F d r4 with _ | ⟨ms1, r5⟩
        · rw [hm] at h
          cases h
        · rw [hm] at h
          cases h
          have := ihM _ _ _ _ hm
          dsimp only
          omega
      · cases h
        omega
    · intro d s es rest h
      rw [parseElements] at h
      rcases hv : parseValue F d s with _ | ⟨v, r3⟩
      · rw [hv] at h
        cases h
      rw [hv] at h
      simp only [] at h
      have hl2 := ihV _ _ _ _ hv
      have hsk3 := skipSpace_length r3
      rcases hk3 : skipSpace r3 with _ | ⟨dl, r4⟩
      · rw [hk3] at h
        cases h
      rw [hk3] at h hsk3
      simp only [List.length_cons] at hsk3
      simp only [] at h
      split_ifs at h
      · rcases hm : parseElements F d r4 with _ | ⟨ms1, r5⟩
        · rw [hm] at h
          cases h
        · rw [hm] at h
          cases h
          have := ihE _ _ _ _ hm
          dsimp only
          omega
      · cases h
        omega

/-- The bound of the parser is never reached when it is at least twice the
length of the input plus one (plus two for the member and element loops):
any two such bounds give the same result. -/
theorem parse_fuel : ∀ F : Nat,
    (∀ f d s, 2 * s.length + 1 ≤ F → 2 * s.length + 1 ≤ f →
      parseValue F d s = parseValue f d s) ∧
    (∀ f d s, 2 * s.length + 2 ≤ F → 2 * s.length + 2 ≤ f →
      parseMembers F d s = parseMembers f d s) ∧
    (∀ f d s, 2 * s.length + 2 ≤ F → 2 * s.length + 2 ≤ f →
      parseElements F d s = parseElements f d s) := by
  intro F
  induction F with
  | zero =>
    refine ⟨?_, ?_, ?_⟩ <;> intro f d s h1 _ <;> omega
  | succ F ih =>
    obtain ⟨ihV, ihM, ihE⟩ := ih
    refine ⟨?_, ?_, ?_⟩
    · intro f d s h1 h2
      obtain ⟨g, rfl⟩ : ∃ g, f = g + 1 := ⟨f - 1, by omega⟩
      rw [parseValue, parseValue]
      have hsk := skipSpace_length s
      rcases hk : skipSpace s with _ | ⟨c, r⟩
      · rfl
      rw [hk] at hsk
      simp only [List.length_cons] at hsk
      simp only []
      have hsk2 := skipSpace_length r
      rcases hk2 : skipSpace r with _ | ⟨c1, r1⟩
      · rfl
      rw [hk2] at hsk2
      simp only [List.length_cons] at hsk2
      have hM : parseMembers F (d + 1) (c1 :: r1) = parseMembers g (d + 1) (c1 :: r1) :=
        ihM g (d + 1) _ (by simp only [List.length_cons]; omega)
          (by simp only [List.length_cons]; omega)
      have hE : parseElements F (d + 1) (c1 :: r1) = parseElements g (d + 1) (c1 :: r1) :=
        ihE g (d + 1) _ (by simp only [List.length_cons]; omega)
          (by simp only [List.length_cons]; omega)
      simp only [hM, hE]
    · intro f d s h1 h2
      obtain ⟨g, rfl⟩ : ∃ g, f = g + 1 := ⟨f - 1, by omega⟩
      rw [parseMembers, parseMembers]
      have hsk := skipSpace_length s
      rcases hk : skipSpace s with _ | ⟨q, r⟩
      · rfl
      rw [hk] at hsk
      simp only [List.length_cons] at hsk
      simp only []
      by_cases hq : q = 0x22
      swap
      · rw [if_neg hq, if_neg hq]
      rw [if_pos hq, if_pos hq]
      rcases hs : scanString r with _ | ⟨lit, r1⟩
      · rfl
      have hl1 := scanString_length _ _ _ _ (le_refl _) hs
      simp only []
      rcases hu : unquote lit with _ | key
      · rfl
      simp only []
      have hsk2 := skipSpace_length r1
      rcases hk2 : skipSpace r1 with _ | ⟨colon, r2⟩
      · rfl
      rw [hk2] at hsk2
      simp only [List.length_cons] at hsk2
      simp only []
      by_cases hcolon : colon = 0x3A
      swap
      · rw [if_neg hcolon, if_neg hcolon]
      rw [if_pos hcolon, if_pos hcolon]
      rw [ihV g d r2 (by omega) (by omega)]
      rcases hv : parseValue g d r2 with _ | ⟨v, r3⟩
      · rfl
      simp only []
      have hl2 := (parse_length g).1 _ _ _ _ hv
      have hsk3 := skipSpace_length r3
      rcases hk3 : skipSpace r3 with _ | ⟨dl, r4⟩
      · rfl
      rw [hk3] at hsk3
      simp only [List.length_cons] at hsk3
      simp only []
      rw [ihM g d r4 (by omega) (by omega)]
    · intro f d s h1 h2
      obtain ⟨g, rfl⟩ : ∃ g, f = g + 1 := ⟨f - 1, by omega⟩
      rw [parseElements, parseElements]
      rw [ihV g d s (by omega) (by omega)]
      rcases hv : parseValue g d s with _ | ⟨v, r3⟩
      · rfl
      simp only []
      have hl2 := (parse_length g).1 _ _ _ _ hv
      have hsk3 := skipSpace_length r3
      rcases hk3 : skipSpace r3 with _ | ⟨dl, r4⟩
      · rfl
      rw [hk3] at hsk3
      simp only [List.length_cons] at hsk3
      simp only []
      rw [ihE g d r4 (by omega) (by omega)]

/-- The bound that `parseJSON` passes to the parser is never reached: every
larger bound gives the same result. -/
theorem parseJSON_fuel (data : GoString) (F : Nat) (h : 2 * data.length + 1 ≤ F) :
    parseValue F 0 data = parseValue (2 * data.length + 1) 0 data :=
  (parse_fuel F).1 _ 0 data h (le_refl _)

/-! ## Parsing what `jsonMarshal` writes -/

theorem skipSpace_cons (c : Nat) (rest : GoString) (h : isSpace c = false) :
    skipSpace (c :: rest) = c :: rest := by
  simp [skipSpace, h]

theorem parseValue_string (fuel depth : Nat) (body s rest : GoString)
    (hscan : scanString (body ++ 0x22 :: rest) = some (body, rest))
    (hun : unquote body = some s) :
    parseValue (fuel + 1) depth (0x22 :: (body ++ 0x22 :: rest)) = some (.string s, rest) := by
  rw [parseValue]
  rw [skipSpace_cons _ _ (by decide)]
  simp [hscan, hun]

theorem parseMembers_last (fuel depth : Nat) (keyLit key body s rest : GoString)
    (hkscan : ∀ r, scanString (keyLit ++ 0x22 :: r) = some (keyLit, r))
    (hkun : unquote keyLit = some key)
    (hscan : ∀ r, scanString (body ++ 0x22 :: r) = some (body, r))
    (hun : unquote body = some s) :
    parseMembers (fuel + 2) depth
        (0x22 :: (keyLit ++ 0x22 :: 0x3A :: 0x22 :: (body ++ 0x22 :: 0x7D :: rest)))
      = some ([(key, .string s)], rest) := by
  rw [parseMembers]
  rw [skipSpace_cons _ _ (by decide)]
  simp only [if_pos, hkscan, hkun]
  rw [skipSpace_cons _ _ (by decide)]
  simp only [if_pos, parseValue_string fuel depth body s _ (hscan _) hun]
  rw [skipSpace_cons _ _ (by decide)]
  simp

theorem parseMembers_more (fuel depth : Nat) (keyLit key body s rest : GoString)
    (hkscan : ∀ r, scanString (keyLit ++ 0x22 :: r) = some (keyLit, r))
    (hkun : unquote keyLit = some key)
    (hscan : ∀ r, scanString (body ++ 0x22 :: r) = some (body, r))
    (hun : unquote body = some s) :
    parseMembers (fuel + 2) depth
        (0x22 :: (keyLit ++ 0x22 :: 0x3A :: 0x22 :: (body ++ 0x22 :: 0x2C :: rest)))
      = (parseMembers (fuel + 1) depth rest).map fun r => ((key, .string s) :: r.1, r.2) := by
  rw [parseMembers]
  rw [skipSpace_cons _ _ (by decide)]
  simp only [if_pos, hkscan, hkun]
  rw [skipSpace_cons _ _ (by decide)]
  simp only [if_pos, parseValue_string fuel depth body s _ (hscan _) hun]
  rw [skipSpace_cons _ _ (by decide)]
  simp

theorem appendString_body (s : GoString) (hvalid : utf8Valid s = true) :
    ∃ body, appendString s = 0x22 :: (body ++ [0x22]) ∧
      (∀ r, scanString (body ++ 0x22 :: r) = some (body, r)) ∧ unquote body = some s := by
  obtain ⟨h1, h2⟩ := appendStringLoop_roundtrip s.length s (le_refl _) hvalid
  exact ⟨appendStringLoop s.length s, rfl, h1, h2 _ (le_refl _)⟩

theorem scanString_key (key : GoString) (hkey : ∀ x ∈ key, x ≠ 0x22 ∧ x ≠ 0x5C ∧ 0x20 ≤ x)
    (r : GoString) : scanString (key ++ 0x22 :: r) = some (key, r) := by
  have h := scanString_plain key [] r hkey (by simpa using scanString_quote r)
  simpa using h

/-- The text that `jsonMarshal` writes for a token with valid UTF-8 fields is
parsed as an object with the two members in order. -/
theorem parseJSON_marshal (x : ErmesToken) (h1 : utf8Valid x.SessionID = true)
    (h2 : utf8Valid x.Host = true) :
    ∃ enc, jsonMarshal x = .ok enc ∧
      parseJSON enc = some (.object [(str "sessionId", .string x.SessionID),
        (str "host", .string x.Host)]) := by
  obtain ⟨b1, hb1, hs1, hu1⟩ := appendString_body x.SessionID h1
  obtain ⟨b2, hb2, hs2, hu2⟩ := appendString_body x.Host h2
  have hp1 : str "\x7b\"sessionId\":" = 0x7B :: 0x22 :: (str "sessionId" ++ [0x22, 0x3A]) := by
    decide
  have hp2 : str ",\"host\":" = 0x2C :: 0x22 :: (str "host" ++ [0x22, 0x3A]) := by decide
  have hp3 : str "\x7d" = [0x7D] := by decide
  have henc : jsonMarshal x = .ok (0x7B :: 0x22 :: (str "sessionId" ++ 0x22 :: 0x3A :: 0x22 ::
      (b1 ++ 0x22 :: 0x2C :: 0x22 :: (str "host" ++ 0x22 :: 0x3A :: 0x22 ::
        (b2 ++ 0x22 :: 0x7D :: []))))) := by
    simp only [jsonMarshal, hb1, hb2, hp1, hp2, hp3, List.append_assoc, List.cons_append,
      List.nil_append]
  refine ⟨_, henc, ?_⟩
  have hk1 : ∀ r, scanString (str "sessionId" ++ 0x22 :: r) = some (str "sessionId", r) :=
    scanString_key _ (by decide)
  have hk2 : ∀ r, scanString (str "host" ++ 0x22 :: r) = some (str "host", r) :=
    scanString_key _ (by decide)
  have hu3 : unquote (str "sessionId") = some (str "sessionId") := by decide
  have hu4 : unquote (str "host") = some (str "host") := by decide
  unfold parseJSON
  generalize hl : (0x7B :: 0x22 :: (str "sessionId" ++ 0x22 :: 0x3A :: 0x22 ::
      (b1 ++ 0x22 :: 0x2C :: 0x22 :: (str "host" ++ 0x22 :: 0x3A :: 0x22 ::
        (b2 ++ 0x22 :: 0x7D :: []))))).length = len
  have hlen : 3 ≤ len := by
    rw [← hl]
    simp only [List.length_cons, List.length_append]
    omega
  obtain ⟨k, hk⟩ : ∃ k, 2 * len + 1 = k + 3 + 1 := ⟨2 * len + 1 - 4, by omega⟩
  rw [hk]
  have hparse : parseValue (k + 3 + 1) 0 (0x7B :: 0x22 :: (str "sessionId" ++ 0x22 :: 0x3A :: 0x22 ::
      (b1 ++ 0x22 :: 0x2C :: 0x22 :: (str "host" ++ 0x22 :: 0x3A :: 0x22 ::
        (b2 ++ 0x22 :: 0x7D :: []))))) = some (.object [(str "sessionId", .string x.SessionID),
        (str "host", .string x.Host)], []) := by
    rw [parseValue]
    rw [skipSpace_cons _ _ (by decide)]
    simp only [if_pos]
    rw [if_neg (by decide)]
    rw [skipSpace_cons _ _ (by decide)]
    simp only []
    rw [if_neg (by decide)]
    rw [parseMembers_more (k + 1) 1 _ _ b1 _ _ hk1 hu3 hs1 hu1]
    rw [parseMembers_last k 1 _ _ b2 _ _ hk2 hu4 hs2 hu2]
    rfl
  rw [hparse]
  rfl

/-- Round trip of the wire format on tokens whose fields are valid UTF-8. -/
theorem jsonUnmarshal_marshal (x : ErmesToken) (h1 : utf8Valid x.SessionID = true)
    (h2 : utf8Valid x.Host = true) :
    ∃ enc, jsonMarshal x = .ok enc ∧ jsonUnmarshal enc = .ok x := by
  obtain ⟨enc, henc, hparse⟩ := parseJSON_marshal x h1 h2
  refine ⟨enc, henc, ?_⟩
  have hf1 : lookupField (str "sessionId") = some .sessionId := by decide
  have hf2 : lookupField (str "host") = some .host := by decide
  simp [jsonUnmarshal, hparse, decodeToken, decodeMembers, hf1, hf2, storeString]

/-! ## Headers -/

theorem lookup_filter_ne (key key1 : GoString) (h : HeaderMap) (hne : key1 ≠ key) :
    (h.filter fun e => e.1 ≠ key).lookup key1 = h.lookup key1 := by
  induction h with
  | nil => rfl
  | cons e rest ih =>
    obtain ⟨k, vs⟩ := e
    by_cases hk : k = key
    · subst hk
      have h1 : (key1 == k) = false := by simpa using hne
      simp only [ne_eq, decide_not] at ih
      simp [List.filter_cons, List.lookup_cons, h1, ih]
    · by_cases hk1 : key1 = k
      · subst hk1
        simp [List.filter_cons, List.lookup_cons, hk]
      · have h1 : (key1 == k) = false := by simpa using hk1
        simp only [ne_eq, decide_not] at ih
        simp [List.filter_cons, List.lookup_cons, hk, h1, ih]

theorem values_assign_self (h : HeaderMap) (key : GoString) (vs : List GoString) :
    (h.assign key vs).values key = vs := by
  simp [HeaderMap.assign, HeaderMap.values, List.lookup_cons]

theorem values_assign_other (h : HeaderMap) (key key1 : GoString) (vs : List GoString)
    (hne : key1 ≠ key) : (h.assign key vs).values key1 = h.values key1 := by
  have h1 : (key1 == key) = false := by simpa using hne
  have h2 := lookup_filter_ne key key1 h hne
  simp only [ne_eq, decide_not] at h2
  simp [HeaderMap.assign, HeaderMap.values, List.lookup_cons, h1, h2]

/-! ## The method `do` -/

theorem attachToken_none (c : ErmesClient) (options : Request) (h : c.Token = none) :
    c.attachToken options = .ok options := by
  simp [ErmesClient.attachToken, h]

theorem attachToken_some (c : ErmesClient) (options : Request) (t : ErmesToken)
    (h : c.Token = some t) :
    ∃ enc, jsonMarshal t = .ok enc ∧
      c.attachToken options = .ok { options with
        Header := some (HeaderMap.Set (options.Header.getD []) c.tokenHeaderName enc) } := by
  refine ⟨_, rfl, ?_⟩
  cases hh : options.Header <;> simp [ErmesClient.attachToken, h, jsonMarshal, hh]

theorem do_of_response (c : ErmesClient) (net : RoundTrip) (options req : Request)
    (response : Response) (hreq : c.attachToken options = .ok req)
    (hnet : net c.httpClient req = .ok response) :
    c.do' net options =
      if response.StatusCode = StatusOK ∧ response.Header.Get c.tokenHeaderName ≠ [] then
        match jsonUnmarshal (response.Header.Get c.tokenHeaderName) with
        | .error err => ⟨c, [req], .error err⟩
        | .ok token => ⟨{ c with tokenOrInitialHost := .token token }, [req], .ok response⟩
      else ⟨c, [req], .ok response⟩ := by
  unfold ErmesClient.do'
  simp only [hreq, hnet]
  by_cases h1 : response.StatusCode = StatusOK
  · by_cases h2 : response.Header.Get c.tokenHeaderName = []
    · simp [h1, h2]
    · simp [h1, h2]
  · simp [h1]

theorem do_sent (c : ErmesClient) (net : RoundTrip) (options req : Request)
    (hreq : c.attachToken options = .ok req) : (c.do' net options).sent = [req] := by
  unfold ErmesClient.do'
  simp only [hreq]
  cases net c.httpClient req with
  | error e => rfl
  | ok response =>
    simp only []
    split
    · split
      · split <;> rfl
      · rfl
    · rfl

theorem do_sent_held (c : ErmesClient) (net : RoundTrip) (options : Request)
    (t : ErmesToken) (hheld : c.Token = some t) :
    ∃ req enc, (c.do' net options).sent = [req] ∧ jsonMarshal t = .ok enc ∧
      req.Header.Values c.tokenHeaderName = [enc] ∧
      (∀ key, key ≠ CanonicalMIMEHeaderKey c.tokenHeaderName →
        req.Header.index key = options.Header.index key) ∧
      req.Method = options.Method ∧ req.URL = options.URL ∧
      req.Body = options.Body ∧ req.Host = options.Host := by
  obtain ⟨enc, henc, hreq⟩ := attachToken_some c options t hheld
  refine ⟨_, enc, do_sent c net options _ hreq, henc, ?_, ?_, rfl, rfl, rfl, rfl⟩
  · simp [Header.Values, Header.index, HeaderMap.Set, values_assign_self]
  · intro key hkey
    cases hh : options.Header with
    | none =>
      have h1 := values_assign_other [] (CanonicalMIMEHeaderKey c.tokenHeaderName) key [enc] hkey
      simpa [Header.index, HeaderMap.Set] using h1
    | some m =>
      have h1 := values_assign_other m (CanonicalMIMEHeaderKey c.tokenHeaderName) key [enc] hkey
      simpa [Header.index, HeaderMap.Set] using h1

theorem NewRequest_ok (env : Env) (method url : GoString) (body : Option GoString) (u : URL)
    (hmethod : method ≠ [] ∧ method.all validHeaderFieldByte = true)
    (hurl : env.urlParse url = .ok u) :
    NewRequest env method url body =
      .ok { Method := method, URL := some { u with Host := removeEmptyPort u.Host },
            Header := some [], Body := body, Host := removeEmptyPort u.Host } := by
  simp [NewRequest, hmethod.1, hmethod.2, hurl]

theorem NewRequest_header (env : Env) (method url : GoString) (body : Option GoString)
    (req : Request) (h : NewRequest env method url body = .ok req) :
    req.Header = some [] := by
  unfold NewRequest at h
  simp only [] at h
  generalize (if method = [] then str "GET" else method) = m at h
  by_cases hm : m.all validHeaderFieldByte = true
  · rw [if_neg (by simp [hm])] at h
    cases hu : env.urlParse url with
    | error e => simp [hu] at h
    | ok u =>
      simp only [hu] at h
      cases h
      rfl
  · rw [if_pos hm] at h
    cases h

theorem do_sent_held_url (c : ErmesClient) (net : RoundTrip) (options : Request)
    (t : ErmesToken) (enc : GoString) (hheld : c.Token = some t)
    (henc : jsonMarshal t = .ok enc) :
    ∃ r, (c.do' net options).sent = [r] ∧ r.URL = options.URL ∧
      r.Header.Values c.tokenHeaderName = [enc] := by
  obtain ⟨r, enc1, hs, henc1, hv, -, -, hu, -, -⟩ := do_sent_held c net options t hheld
  rw [henc] at henc1
  cases henc1
  exact ⟨r, hs, hu, hv⟩

theorem do_sent_sub (c : ErmesClient) (net : RoundTrip) (options r : Request)
    (hr : r ∈ (c.do' net options).sent) : c.attachToken options = .ok r := by
  cases hreq : c.attachToken options with
  | error e =>
    simp [ErmesClient.do', hreq] at hr
  | ok req =>
    rw [do_sent c net options req hreq] at hr
    simp at hr
    rw [hr]

/-- C2: when the transport answers with a status other than 200, or with no
(or an empty) value under the token header, the call returns that response and
the routing target is what it was, whatever else the response carries. -/
theorem C2_other_responses_leave_target (c : ErmesClient) (net : RoundTrip)
    (options req : Request) (response : Response)
    (hreq : c.attachToken options = .ok req)
    (hnet : net c.httpClient req = .ok response)
    (hcase : response.StatusCode ≠ StatusOK ∨ response.Header.Get c.tokenHeaderName = []) :
    (c.do' net options).result = .ok response ∧
    (c.do' net options).client = c ∧
    (c.do' net options).client.Host = c.Host ∧
    (c.do' net options).client.Token = c.Token := by
  have h : ¬ (response.StatusCode = StatusOK ∧ response.Header.Get c.tokenHeaderName ≠ []) := by
    rintro ⟨h1, h2⟩
    rcases hcase with h | h
    · exact h h1
    · exact h2 h
  rw [do_of_response c net options req response hreq hnet, if_neg h]
  exact ⟨rfl, rfl, rfl, rfl⟩

/-- C5: a 200 response whose non-empty token header does not decode makes the
call return the decoding error instead of the response, and the routing target
is what it was. -/
theorem C5_decode_error_discards_response (c : ErmesClient) (net : RoundTrip)
    (options req : Request) (response : Response) (err : Error)
    (hreq : c.attachToken options = .ok req)
    (hnet : net c.httpClient req = .ok response)
    (hstatus : response.StatusCode = StatusOK)
    (hpresent : response.Header.Get c.tokenHeaderName ≠ [])
    (hdecode : jsonUnmarshal (response.Header.Get c.tokenHeaderName) = .error err) :
    (c.do' net options).result = .error err ∧
    (c.do' net options).client = c ∧
    (c.do' net options).client.Host = c.Host ∧
    (c.do' net options).client.Token = c.Token := by
  rw [do_of_response c net options req response hreq hnet, if_pos ⟨hstatus, hpresent⟩, hdecode]
  exact ⟨rfl, rfl, rfl, rfl⟩

/-- C3, amended: while a token is held, the request handed to the transport
has exactly one value under the canonical form of the token header name (the
key that `Header.Set`, `Header.Get` and `Header.Values` use), the encoding of
the held token; every other key of the header map, another spelling of the
token header name among them, and every other field of the request is the
caller's (a nil header map counts as empty). -/
theorem C3_held_token_is_attached (c : ErmesClient) (net : RoundTrip) (options : Request)
    (t : ErmesToken) (hheld : c.Token = some t) :
    ∃ req enc, (c.do' net options).sent = [req] ∧ jsonMarshal t = .ok enc ∧
      req.Header.Values c.tokenHeaderName = [enc] ∧
      (∀ key, key ≠ CanonicalMIMEHeaderKey c.tokenHeaderName →
        req.Header.index key = options.Header.index key) ∧
      req.Method = options.Method ∧ req.URL = options.URL ∧
      req.Body = options.Body ∧ req.Host = options.Host :=
  do_sent_held c net options t hheld

/-- C6: without an initial token and without an initial origin the constructor
fails, whatever the other options are. -/
theorem C6_neither_origin_nor_token (env : Env) (httpClient : Option HTTPClient)
    (tokenHeaderName scheme : GoString) :
    NewErmesClient env
      { HttpClient := httpClient, TokenHeaderName := tokenHeaderName, Scheme := scheme,
        InitialOrigin := [], InitialToken := none } = .error .missingOrigin := by
  simp [NewErmesClient]

/-- C7: with an initial token the constructor succeeds; the client holds that
token, its host is the token's host, and its scheme is the scheme option, or
"https" when that option is empty.  The origin option is not consulted. -/
theorem C7_initial_token (env : Env) (httpClient : Option HTTPClient)
    (tokenHeaderName scheme origin : GoString) (t : ErmesToken) :
    ∃ c, NewErmesClient env
        { HttpClient := httpClient, TokenHeaderName := tokenHeaderName, Scheme := scheme,
          InitialOrigin := origin, InitialToken := some t } = .ok c ∧
      c.Token = some t ∧ c.Host = t.Host ∧
      c.scheme = (if scheme = [] then str "https" else scheme) ∧
      ∀ path, c.StringURL path = c.scheme ++ str "://" ++ t.Host ++ path := by
  refine ⟨_, rfl, rfl, rfl, ?_, fun _ => rfl⟩
  by_cases h : scheme = [] <;> simp [h]

/-- C8: with no initial token and a non-empty origin, the constructor succeeds
exactly when the origin parses; the client then has the parsed host, no token,
and the parsed scheme, whatever the scheme option says. -/
theorem C8_initial_origin (env : Env) (httpClient : Option HTTPClient)
    (tokenHeaderName scheme origin : GoString) (hne : origin ≠ []) :
    (∀ u, env.urlParse origin = .ok u →
      ∃ c, NewErmesClient env
          { HttpClient := httpClient, TokenHeaderName := tokenHeaderName, Scheme := scheme,
            InitialOrigin := origin, InitialToken := none } = .ok c ∧
        c.Host = u.Host ∧ c.Token = none ∧ c.scheme = u.Scheme ∧
        ∀ path, c.StringURL path = u.Scheme ++ str "://" ++ u.Host ++ path) ∧
    (∀ err, env.urlParse origin = .error err →
      NewErmesClient env
          { HttpClient := httpClient, TokenHeaderName := tokenHeaderName, Scheme := scheme,
            InitialOrigin := origin, InitialToken := none } = .error err) := by
  constructor
  · intro u hu
    refine ⟨{ httpClient := httpClient.getD HTTPClient.zero
              scheme := u.Scheme
              tokenHeaderName :=
                if tokenHeaderName ≠ [] then tokenHeaderName else DefaultTokenHeaderName
              tokenOrInitialHost := .host u.Host }, ?_, rfl, rfl, rfl, fun _ => rfl⟩
    cases httpClient <;> simp [NewErmesClient, hne, hu]
  · intro err herr
    simp [NewErmesClient, hne, herr]

/-- C1: when the transport answers 200 with a non-empty token header that
decodes to `t`, the call returns the response, the client then holds `t` and
addresses `t.Host`, and the next request through `Do`, `Get`, `Head` or `Post`
goes to the parse of `scheme://t.Host<path>` with the encoding of `t` as the
one value of the token header. -/
theorem C1_returned_token_is_adopted (c : ErmesClient) (env : Env) (net net2 : RoundTrip)
    (options req options2 : Request) (response : Response) (t : ErmesToken)
    (path2 bodyType : GoString) (body : Option GoString)
    (hreq : c.attachToken options = .ok req)
    (hnet : net c.httpClient req = .ok response)
    (hstatus : response.StatusCode = StatusOK)
    (hpresent : response.Header.Get c.tokenHeaderName ≠ [])
    (hdecode : jsonUnmarshal (response.Header.Get c.tokenHeaderName) = .ok t) :
    (c.do' net options).result = .ok response ∧
    (c.do' net options).client.Token = some t ∧
    (c.do' net options).client.Host = t.Host ∧
    (c.do' net options).client.StringURL path2 = c.scheme ++ str "://" ++ t.Host ++ path2 ∧
    ∃ enc, jsonMarshal t = .ok enc ∧
      ∀ url2, env.urlParse (c.scheme ++ str "://" ++ t.Host ++ path2) = .ok url2 →
        (∃ r, ((c.do' net options).client.Do env net2 path2 options2).sent = [r] ∧
          r.URL = some url2 ∧ r.Header.Values c.tokenHeaderName = [enc]) ∧
        (∃ r, ((c.do' net options).client.Get env net2 path2).sent = [r] ∧
          r.URL = some { url2 with Host := removeEmptyPort url2.Host } ∧
          r.Header.Values c.tokenHeaderName = [enc]) ∧
        (∃ r, ((c.do' net options).client.Head env net2 path2).sent = [r] ∧
          r.URL = some { url2 with Host := removeEmptyPort url2.Host } ∧
          r.Header.Values c.tokenHeaderName = [enc]) ∧
        (∃ r, ((c.do' net options).client.Post env net2 path2 bodyType body).sent = [r] ∧
          r.URL = some { url2 with Host := removeEmptyPort url2.Host } ∧
          r.Header.Values c.tokenHeaderName = [enc]) := by
  rw [do_of_response c net options req response hreq hnet, if_pos ⟨hstatus, hpresent⟩, hdecode]
  refine ⟨rfl, rfl, rfl, rfl, _, rfl, ?_⟩
  intro url2 hurl2
  have hheld : ({ c with tokenOrInitialHost := .token t } : ErmesClient).Token = some t := rfl
  have hstr : ({ c with tokenOrInitialHost := .token t } : ErmesClient).StringURL path2
      = c.scheme ++ str "://" ++ t.Host ++ path2 := rfl
  refine ⟨?_, ?_, ?_, ?_⟩
  · simp only [ErmesClient.Do, ErmesClient.URL, hstr, hurl2]
    exact do_sent_held_url _ net2 _ t _ hheld rfl
  · have hnew := NewRequest_ok env (str "GET") _ none url2 (by decide) (hstr ▸ hurl2)
    simp only [ErmesClient.Get, hnew]
    exact do_sent_held_url _ net2 _ t _ hheld rfl
  · have hnew := NewRequest_ok env (str "HEAD") _ none url2 (by decide) (hstr ▸ hurl2)
    simp only [ErmesClient.Head, hnew]
    exact do_sent_held_url _ net2 _ t _ hheld rfl
  · have hnew := NewRequest_ok env (str "POST") _ body url2 (by decide) (hstr ▸ hurl2)
    simp only [ErmesClient.Post, hnew]
    exact do_sent_held_url _ net2 _ t _ hheld rfl

/-- C4 (as amended): a client that holds no token adds no token header.  The
request that `Do` hands to the transport has exactly the caller's header map,
a `Get` or `Head` request has no header entry at all, and a `Post` request has
no entry other than `Content-Type`. -/
theorem C4_no_token_header_added (c : ErmesClient) (env : Env) (net : RoundTrip)
    (path bodyType : GoString) (body : Option GoString) (options : Request)
    (hnone : c.Token = none) :
    (∀ r ∈ (c.Do env net path options).sent,
      r.Header = options.Header ∧
      r.Header.Values c.tokenHeaderName = options.Header.Values c.tokenHeaderName) ∧
    (∀ r ∈ (c.Get env net path).sent, ∀ key, r.Header.index key = []) ∧
    (∀ r ∈ (c.Head env net path).sent, ∀ key, r.Header.index key = []) ∧
    (∀ r ∈ (c.Post env net path bodyType body).sent, ∀ key,
      key ≠ CanonicalMIMEHeaderKey (str "Content-Type") → r.Header.index key = []) := by
  refine ⟨?_, ?_, ?_, ?_⟩
  · intro r hr
    unfold ErmesClient.Do at hr
    cases hu : c.URL env path with
    | error e => simp [hu] at hr
    | ok url =>
      simp only [hu] at hr
      have h1 := do_sent_sub c net _ r hr
      rw [attachToken_none c _ hnone] at h1
      cases h1
      exact ⟨rfl, rfl⟩
  · intro r hr key
    unfold ErmesClient.Get at hr
    cases hn : NewRequest env (str "GET") (c.StringURL path) none with
    | error e => simp [hn] at hr
    | ok req =>
      simp only [hn] at hr
      have h1 := do_sent_sub c net _ r hr
      rw [attachToken_none c _ hnone] at h1
      cases h1
      rw [NewRequest_header env _ _ _ _ hn]
      rfl
  · intro r hr key
    unfold ErmesClient.Head at hr
    cases hn : NewRequest env (str "HEAD") (c.StringURL path) none with
    | error e => simp [hn] at hr
    | ok req =>
      simp only [hn] at hr
      have h1 := do_sent_sub c net _ r hr
      rw [attachToken_none c _ hnone] at h1
      cases h1
      rw [NewRequest_header env _ _ _ _ hn]
      rfl
  · intro r hr key hkey
    unfold ErmesClient.Post at hr
    cases hn : NewRequest env (str "POST") (c.StringURL path) body with
    | error e => simp [hn] at hr
    | ok req =>
      simp only [hn] at hr
      have h1 := do_sent_sub c net _ r hr
      rw [attachToken_none c _ hnone] at h1
      cases h1
      rw [NewRequest_header env _ _ _ _ hn]
      have h2 := values_assign_other [] (CanonicalMIMEHeaderKey (str "Content-Type")) key
        [bodyType] hkey
      simpa [Header.index, HeaderMap.Set] using h2

/-! ## The token decoder on objects -/

theorem decodeMembers_filter (ms : List (GoString × JValue)) :
    ∀ st, decodeMembers st ms
      = decodeMembers st (ms.filter fun m => (lookupField m.1).isSome) := by
  induction ms with
  | nil => intro st; rfl
  | cons m ms ih =>
    intro st
    obtain ⟨key, v⟩ := m
    cases hk : lookupField key with
    | none => simp [decodeMembers, List.filter_cons, hk, ih st]
    | some f =>
      simp only [decodeMembers, List.filter_cons, hk, Option.isSome_some, if_true]
      exact ih _

theorem decodeMembers_savedError (ms : List (GoString × JValue)) :
    ∀ st, (∀ m ∈ ms, lookupField m.1 ≠ none → (∃ s, m.2 = .string s) ∨ m.2 = .null) →
      (decodeMembers st ms).savedError = st.savedError := by
  induction ms with
  | nil => intro st _; rfl
  | cons m ms ih =>
    intro st h
    obtain ⟨key, v⟩ := m
    have hm := h (key, v) (by simp)
    have hrest : ∀ m ∈ ms, lookupField m.1 ≠ none → (∃ s, m.2 = .string s) ∨ m.2 = .null :=
      fun m hmem => h m (by simp [hmem])
    cases hk : lookupField key with
    | none =>
      simp only [decodeMembers, hk]
      exact ih st hrest
    | some f =>
      simp only [decodeMembers, hk]
      rw [ih _ hrest]
      rcases hm (by simp [hk]) with ⟨s, hs⟩ | hs
      · simp only at hs
        subst hs
        cases f <;> rfl
      · simp only at hs
        subst hs
        rfl

theorem storeString_Host (st : DecodeState) (v : JValue) :
    (storeString st .sessionId v).token.Host = st.token.Host := by
  cases v <;> rfl

theorem storeString_SessionID (st : DecodeState) (v : JValue) :
    (storeString st .host v).token.SessionID = st.token.SessionID := by
  cases v <;> rfl

theorem decodeMembers_Host (ms : List (GoString × JValue)) :
    ∀ st, (∀ m ∈ ms, lookupField m.1 ≠ some .host) →
      (decodeMembers st ms).token.Host = st.token.Host := by
  induction ms with
  | nil => intro st _; rfl
  | cons m ms ih =>
    intro st h
    obtain ⟨key, v⟩ := m
    have hm := h (key, v) (by simp)
    have hrest : ∀ m ∈ ms, lookupField m.1 ≠ some .host := fun m hmem => h m (by simp [hmem])
    cases hk : lookupField key with
    | none =>
      simp only [decodeMembers, hk]
      exact ih st hrest
    | some f =>
      simp only [decodeMembers, hk]
      rw [ih _ hrest]
      cases f with
      | sessionId => exact storeString_Host st v
      | host => exact absurd hk hm

theorem decodeMembers_SessionID (ms : List (GoString × JValue)) :
    ∀ st, (∀ m ∈ ms, lookupField m.1 ≠ some .sessionId) →
      (decodeMembers st ms).token.SessionID = st.token.SessionID := by
  induction ms with
  | nil => intro st _; rfl
  | cons m ms ih =>
    intro st h
    obtain ⟨key, v⟩ := m
    have hm := h (key, v) (by simp)
    have hrest : ∀ m ∈ ms, lookupField m.1 ≠ some .sessionId :=
      fun m hmem => h m (by simp [hmem])
    cases hk : lookupField key with
    | none =>
      simp only [decodeMembers, hk]
      exact ih st hrest
    | some f =>
      simp only [decodeMembers, hk]
      rw [ih _ hrest]
      cases f with
      | sessionId => exact absurd hk hm
      | host => exact storeString_SessionID st v

/-- C9 (as amended): for every token whose two fields are valid UTF-8,
decoding the encoding succeeds and gives the token back, and so re-encoding
what was decoded gives the same text. -/
theorem C9_roundtrip_valid_utf8 (x : ErmesToken) (h1 : utf8Valid x.SessionID = true)
    (h2 : utf8Valid x.Host = true) :
    ∃ enc, jsonMarshal x = .ok enc ∧ jsonUnmarshal enc = .ok x ∧
      ∀ y, jsonUnmarshal enc = .ok y → jsonMarshal y = .ok enc := by
  obtain ⟨enc, henc, hdec⟩ := jsonUnmarshal_marshal x h1 h2
  refine ⟨enc, henc, hdec, fun y hy => ?_⟩
  rw [hdec] at hy
  cases hy
  exact henc

/-- The round trip of C9 on the token with session `s2` and host `h2`. -/
theorem C9_witness :
    jsonMarshal sampleToken = .ok sampleTokenText ∧
    jsonUnmarshal sampleTokenText = .ok sampleToken := by
  obtain ⟨enc, henc, hdec, -⟩ := C9_roundtrip_valid_utf8 sampleToken (by decide) (by decide)
  have h : jsonMarshal sampleToken = .ok sampleTokenText := by rfl
  rw [h] at henc
  cases henc
  exact ⟨h, hdec⟩

/-- C9 fails as stated: a session id that is not valid UTF-8 (the single byte
0xFF) is encoded as the escape of U+FFFD and decoded as the three bytes of
U+FFFD, not as the byte it was. -/
theorem C9_counterexample :
    jsonMarshal ⟨[0xFF], []⟩ = .ok (str "\x7b\"sessionId\":\"\\ufffd\",\"host\":\"\"\x7d") ∧
    jsonUnmarshal (str "\x7b\"sessionId\":\"\\ufffd\",\"host\":\"\"\x7d")
      = .ok ⟨[0xEF, 0xBF, 0xBD], []⟩ ∧
    (⟨[0xEF, 0xBF, 0xBD], []⟩ : ErmesToken) ≠ ⟨[0xFF], []⟩ := by
  decide

/-- C10 (as amended): an absent field is not a decoding error.  When a 200
response carries a token header that parses as a JSON object in which every
member that selects a field has a string or null value, the call returns the
response and the routing target becomes the decoded token; a field that no
member selects is empty in it; and when the members that select a field are
one string for each field, whatever other members there are, the token is made
of those two strings. -/
theorem C10_absent_field_decodes_empty (c : ErmesClient) (net : RoundTrip)
    (options req : Request) (response : Response) (members : List (GoString × JValue))
    (hreq : c.attachToken options = .ok req)
    (hnet : net c.httpClient req = .ok response)
    (hstatus : response.StatusCode = StatusOK)
    (hparse : parseJSON (response.Header.Get c.tokenHeaderName) = some (.object members))
    (htyped : ∀ m ∈ members, lookupField m.1 ≠ none → (∃ s, m.2 = .string s) ∨ m.2 = .null) :
    ∃ t, jsonUnmarshal (response.Header.Get c.tokenHeaderName) = .ok t ∧
      (c.do' net options).result = .ok response ∧
      (c.do' net options).client.Token = some t ∧
      ((∀ m ∈ members, lookupField m.1 ≠ some .sessionId) → t.SessionID = []) ∧
      ((∀ m ∈ members, lookupField m.1 ≠ some .host) → t.Host = []) ∧
      (∀ k1 k2 s h, lookupField k1 = some .sessionId → lookupField k2 = some .host →
        (members.filter (fun m => (lookupField m.1).isSome) = [(k1, .string s), (k2, .string h)]
          ∨ members.filter (fun m => (lookupField m.1).isSome)
            = [(k2, .string h), (k1, .string s)]) →
        t = ⟨s, h⟩) := by
  have hne : response.Header.Get c.tokenHeaderName ≠ [] := by
    intro h0
    rw [h0] at hparse
    cases hparse
  have herr := decodeMembers_savedError members ⟨⟨[], []⟩, none⟩ htyped
  have hdec : jsonUnmarshal (response.Header.Get c.tokenHeaderName)
      = .ok (decodeMembers ⟨⟨[], []⟩, none⟩ members).token := by
    simp only [jsonUnmarshal, hparse, decodeToken]
    rw [herr]
  refine ⟨_, hdec, ?_, ?_, ?_, ?_, ?_⟩
  · rw [do_of_response c net options req response hreq hnet, if_pos ⟨hstatus, hne⟩, hdec]
  · rw [do_of_response c net options req response hreq hnet, if_pos ⟨hstatus, hne⟩, hdec]
    rfl
  · intro h
    exact decodeMembers_SessionID members _ h
  · intro h
    exact decodeMembers_Host members _ h
  · intro k1 k2 s h hk1 hk2 hfilter
    rw [decodeMembers_filter]
    rcases hfilter with hf | hf <;> rw [hf] <;>
      simp [decodeMembers, hk1, hk2, storeString]

/-- The decoding of C10 on a record with a session id, no host and an unknown
member: the client ends up holding the token with an empty host. -/
theorem C10_witness :
    (sampleClient.do' (sampleNet (sampleResponse 200
        (str "\x7b\"sessionId\":\"s\",\"extra\":[1,null]\x7d"))) sampleRequest).client.Token
      = some ⟨str "s", []⟩ := by
  obtain ⟨t, hdec, -, htok, -, -, -⟩ := C10_absent_field_decodes_empty sampleClient
    (sampleNet (sampleResponse 200 (str "\x7b\"sessionId\":\"s\",\"extra\":[1,null]\x7d")))
    sampleRequest sampleRequest
    (sampleResponse 200 (str "\x7b\"sessionId\":\"s\",\"extra\":[1,null]\x7d"))
    [(str "sessionId", .string (str "s")),
     (str "extra", .array [.number (str "1"), .null])]
    (by rfl) (by rfl) (by rfl) (by rfl) (by
      intro m hm hl
      simp only [List.mem_cons, List.mem_singleton, List.not_mem_nil, or_false] at hm
      rcases hm with rfl | rfl
      · exact Or.inl ⟨_, rfl⟩
      · exact absurd (by decide) hl)
  have h2 : jsonUnmarshal ((sampleResponse 200
      (str "\x7b\"sessionId\":\"s\",\"extra\":[1,null]\x7d")).Header.Get
        sampleClient.tokenHeaderName) = .ok ⟨str "s", []⟩ := by rfl
  rw [h2] at hdec
  cases hdec
  exact htok

/-- C10 fails as stated: on a 200 response whose token header is the empty
record the call returns the response, and the routing target is replaced by
the token with both fields empty. -/
theorem C10_counterexample :
    (sampleClient.do' (sampleNet (sampleResponse 200 (str "\x7b\x7d"))) sampleRequest).result
      = .ok (sampleResponse 200 (str "\x7b\x7d")) ∧
    (sampleClient.do' (sampleNet (sampleResponse 200 (str "\x7b\x7d")))
      sampleRequest).client.tokenOrInitialHost = .token ⟨[], []⟩ ∧
    sampleClient.tokenOrInitialHost = .host (str "host.example") := by
  decide

/-- The sample request descriptor is what `NewErmesRequest` builds for a GET
without body under the sample standard library. -/
theorem NewErmesRequest_sample :
    NewErmesRequest sampleEnv (str "GET") none = .ok sampleRequest := by
  rfl

/-- The adoption of C1 on the client addressing `host.example`: after a 200
response carrying the wire form of `sampleToken`, a `Get` of `/resource` goes
to host `h2` and carries that wire form. -/
theorem C1_witness :
    (sampleClient.do' (sampleNet (sampleResponse 200 sampleTokenText)) sampleRequest).client.Token
      = some sampleToken ∧
    (sampleClient.do' (sampleNet (sampleResponse 200 sampleTokenText)) sampleRequest).client.Host
      = str "h2" ∧
    ∃ r, ((sampleClient.do' (sampleNet (sampleResponse 200 sampleTokenText))
              sampleRequest).client.Get sampleEnv
            (sampleNet (sampleResponse 404 [])) (str "/resource")).sent = [r] ∧
      r.URL = some ⟨str "https", str "h2", str "/resource", [], []⟩ ∧
      r.Header.Values DefaultTokenHeaderName = [sampleTokenText] := by
  have h := C1_returned_token_is_adopted sampleClient sampleEnv
    (sampleNet (sampleResponse 200 sampleTokenText)) (sampleNet (sampleResponse 404 []))
    sampleRequest sampleRequest sampleRequest (sampleResponse 200 sampleTokenText) sampleToken
    (str "/resource") [] none (by rfl) (by rfl) (by rfl) (by decide) (by rfl)
  obtain ⟨-, h2, h3, -, enc, henc, hnext⟩ := h
  refine ⟨h2, h3, ?_⟩
  have he : enc = sampleTokenText := by
    have h5 : jsonMarshal sampleToken = .ok sampleTokenText := by rfl
    rw [h5] at henc
    cases henc
    rfl
  subst he
  exact (hnext ⟨str "https", str "h2", str "/resource", [], []⟩ (by rfl)).2.1

/-- The frame of C2 on a 201 response that carries a well-formed token
header: the held token stays. -/
theorem C2_witness :
    (sampleTokenClient.do' (sampleNet (sampleResponse 201 sampleTokenText)) sampleRequest).result
      = .ok (sampleResponse 201 sampleTokenText) ∧
    (sampleTokenClient.do' (sampleNet (sampleResponse 201 sampleTokenText)) sampleRequest).client
      = sampleTokenClient :=
  have h := C2_other_responses_leave_target sampleTokenClient
    (sampleNet (sampleResponse 201 sampleTokenText)) sampleRequest
    { sampleRequest with Header := some [(CanonicalMIMEHeaderKey DefaultTokenHeaderName,
        [str "\x7b\"sessionId\":\"s1\",\"host\":\"h1\"\x7d"])] }
    (sampleResponse 201 sampleTokenText) (by rfl) (by rfl) (Or.inl (by decide))
  ⟨h.1, h.2.1⟩

/-- The attachment of C3 on a request on which the caller had put two values
under the token header and an `Accept` header. -/
theorem C3_witness :
    ∃ req, (sampleTokenClient.do' (sampleNet (sampleResponse 404 [])) sampleCallerRequest).sent
        = [req] ∧
      req.Header.Values DefaultTokenHeaderName
        = [str "\x7b\"sessionId\":\"s1\",\"host\":\"h1\"\x7d"] ∧
      req.Header.index (str "Accept") = [str "text/plain"] := by
  obtain ⟨req, enc, hs, henc, hv, hother, -⟩ := C3_held_token_is_attached sampleTokenClient
    (sampleNet (sampleResponse 404 [])) sampleCallerRequest ⟨str "s1", str "h1"⟩ (by rfl)
  have h5 : jsonMarshal ⟨str "s1", str "h1"⟩
      = .ok (str "\x7b\"sessionId\":\"s1\",\"host\":\"h1\"\x7d") := by rfl
  rw [h5] at henc
  cases henc
  exact ⟨req, hs, hv, (hother (str "Accept") (by decide)).trans (by rfl)⟩

/-- C3 fails as stated: on a request whose header map the caller filled
directly under `X-ErmesSessionToken`, a key that is not in canonical form, the
client that holds a token sets the token under `X-Ermessessiontoken` and
leaves the caller's entry in the map.  The request handed to the transport
carries two values for the token header, the encoded token and the caller's
`mine`. -/
theorem C3_counterexample :
    sampleTokenClient.Token = some ⟨str "s1", str "h1"⟩ ∧
    sampleTokenClient.tokenHeaderName = str "X-ErmesSessionToken" ∧
    sampleSpelledRequest.Header = some [(str "X-ErmesSessionToken", [str "mine"])] ∧
    ∃ r ∈ (sampleTokenClient.Do sampleEnv (sampleNet (sampleResponse 404 [])) (str "/resource")
            sampleSpelledRequest).sent,
      r.Header = some
        [(str "X-Ermessessiontoken", [str "\x7b\"sessionId\":\"s1\",\"host\":\"h1\"\x7d"]),
         (str "X-ErmesSessionToken", [str "mine"])] ∧
      r.Header.index (str "X-ErmesSessionToken") = [str "mine"] ∧
      r.Header.fieldValues sampleTokenClient.tokenHeaderName
        = [str "\x7b\"sessionId\":\"s1\",\"host\":\"h1\"\x7d", str "mine"] ∧
      r.Header.fieldValues sampleTokenClient.tokenHeaderName
        ≠ [str "\x7b\"sessionId\":\"s1\",\"host\":\"h1\"\x7d"] := by
  decide

/-- C4 fails as stated: a client without a token hands over the token header
values that the caller put on the request given to `Do`. -/
theorem C4_counterexample :
    sampleClient.Token = none ∧
    ∃ r ∈ (sampleClient.Do sampleEnv (sampleNet (sampleResponse 404 [])) (str "/resource")
            sampleCallerRequest).sent,
      r.Header.Values sampleClient.tokenHeaderName = [str "mine", str "too"] := by
  decide

/-- The amended C4 on a request descriptor without headers: none are added. -/
theorem C4_witness :
    ∃ r, (sampleClient.Do sampleEnv (sampleNet (sampleResponse 404 [])) (str "/resource")
            sampleRequest).sent = [r] ∧
      r.Header = some [] ∧ r.Header.Values DefaultTokenHeaderName = [] :=
  have hsent : (sampleClient.Do sampleEnv (sampleNet (sampleResponse 404 [])) (str "/resource")
      sampleRequest).sent
      = [{ sampleRequest with
            URL := some ⟨str "https", str "host.example", str "/resource", [], []⟩ }] := by rfl
  ⟨_, hsent,
    (C4_no_token_header_added sampleClient sampleEnv (sampleNet (sampleResponse 404 []))
      (str "/resource") [] none sampleRequest (by rfl)).1 _ (by rw [hsent]; simp)⟩

/-- The failure of C5 on a 200 response whose token header is not JSON. -/
theorem C5_witness :
    (sampleTokenClient.do' (sampleNet (sampleResponse 200 (str "not json"))) sampleRequest).result
      = .error .jsonSyntaxError ∧
    (sampleTokenClient.do' (sampleNet (sampleResponse 200 (str "not json"))) sampleRequest).client
      = sampleTokenClient :=
  have h := C5_decode_error_discards_response sampleTokenClient
    (sampleNet (sampleResponse 200 (str "not json"))) sampleRequest
    { sampleRequest with Header := some [(CanonicalMIMEHeaderKey DefaultTokenHeaderName,
        [str "\x7b\"sessionId\":\"s1\",\"host\":\"h1\"\x7d"])] }
    (sampleResponse 200 (str "not json")) .jsonSyntaxError
    (by rfl) (by rfl) (by rfl) (by decide) (by rfl)
  ⟨h.1, h.2.1⟩

/-- The construction of C8 from the origin `https://host.example` with the
scheme option set to `http`: host `host.example`, scheme `https`, no token. -/
theorem C8_witness :
    ∃ c, NewErmesClient sampleEnv
        { HttpClient := none, TokenHeaderName := [], Scheme := str "http",
          InitialOrigin := str "https://host.example", InitialToken := none } = .ok c ∧
      c.Host = str "host.example" ∧ c.Token = none ∧ c.scheme = str "https" ∧
      ∀ path, c.StringURL path = str "https" ++ str "://" ++ str "host.example" ++ path :=
  (C8_initial_origin sampleEnv none [] (str "http") (str "https://host.example")
    (by decide)).1 ⟨str "https", str "host.example", [], [], []⟩ (by rfl)

/-! ## Single calls -/

theorem attachToken_ok (c : ErmesClient) (options : Request) :
    ∃ req, c.attachToken options = .ok req := by
  cases h : c.Token with
  | none => exact ⟨_, attachToken_none c options h⟩
  | some t =>
    obtain ⟨enc, -, hreq⟩ := attachToken_some c options t h
    exact ⟨_, hreq⟩

/-- What the method `do` leaves behind, by the answer of the transport to the
request handed to it. -/
theorem do_outcome (c : ErmesClient) (net : RoundTrip) (options : Request) :
    ∃ req, c.attachToken options = .ok req ∧ (c.do' net options).sent = [req] ∧
      (c.do' net options).client.tokenOrInitialHost =
        (match offeredToken c.tokenHeaderName (net c.httpClient req) with
          | some t => .token t
          | none => c.tokenOrInitialHost) ∧
      (c.do' net options).client.scheme = c.scheme ∧
      (c.do' net options).client.tokenHeaderName = c.tokenHeaderName ∧
      (c.do' net options).client.httpClient = c.httpClient := by
  obtain ⟨req, hreq⟩ := attachToken_ok c options
  refine ⟨req, hreq, do_sent c net options req hreq, ?_⟩
  cases hnet : net c.httpClient req with
  | error e =>
    simp [ErmesClient.do', hreq, hnet, offeredToken]
  | ok response =>
    rw [do_of_response c net options req response hreq hnet]
    by_cases h : response.StatusCode = StatusOK ∧ response.Header.Get c.tokenHeaderName ≠ []
    · rw [if_pos h]
      cases hdec : jsonUnmarshal (response.Header.Get c.tokenHeaderName) with
      | error e => simp [offeredToken, h, hdec]
      | ok t => simp [offeredToken, h, hdec]
    · rw [if_neg h]
      simp [offeredToken, h]

/-- Every public method either returns an error without handing anything to
the transport and without touching the client, or runs the method `do` on
some request. -/
theorem call_cases (c : ErmesClient) (env : Env) (net : RoundTrip) (call : Call) :
    (∃ err, c.call env net call = ⟨c, [], .error err⟩) ∨
    (∃ req, c.call env net call = c.do' net req) := by
  cases call with
  | Do path options =>
    simp only [ErmesClient.call, ErmesClient.Do]
    cases c.URL env path with
    | error e => exact Or.inl ⟨e, rfl⟩
    | ok u => exact Or.inr ⟨_, rfl⟩
  | Get path =>
    simp only [ErmesClient.call, ErmesClient.Get]
    cases NewRequest env (str "GET") (c.StringURL path) none with
    | error e => exact Or.inl ⟨e, rfl⟩
    | ok u => exact Or.inr ⟨_, rfl⟩
  | Post path bodyType body =>
    simp only [ErmesClient.call, ErmesClient.Post]
    cases NewRequest env (str "POST") (c.StringURL path) body with
    | error e => exact Or.inl ⟨e, rfl⟩
    | ok u => exact Or.inr ⟨_, rfl⟩
  | Head path =>
    simp only [ErmesClient.call, ErmesClient.Head]
    cases NewRequest env (str "HEAD") (c.StringURL path) none with
    | error e => exact Or.inl ⟨e, rfl⟩
    | ok u => exact Or.inr ⟨_, rfl⟩

/-- The effect of one call on the client: the routing target becomes the
token offered during the call, if any, and nothing else changes. -/
theorem call_outcome (c : ErmesClient) (env : Env) (net : RoundTrip) (call : Call) :
    (c.call env net call).client.tokenOrInitialHost =
      (match c.offered net (c.call env net call) with
        | some t => .token t
        | none => c.tokenOrInitialHost) ∧
    (c.call env net call).client.scheme = c.scheme ∧
    (c.call env net call).client.tokenHeaderName = c.tokenHeaderName ∧
    (c.call env net call).client.httpClient = c.httpClient := by
  rcases call_cases c env net call with ⟨err, h⟩ | ⟨req0, h⟩
  · rw [h]
    exact ⟨rfl, rfl, rfl, rfl⟩
  · rw [h]
    obtain ⟨req, -, hsent, htarget, h1, h2, h3⟩ := do_outcome c net req0
    refine ⟨?_, h1, h2, h3⟩
    rw [htarget]
    simp only [ErmesClient.offered, hsent]

theorem do_error_client (c : ErmesClient) (net : RoundTrip) (options : Request) (err : Error)
    (h : (c.do' net options).result = .error err) : (c.do' net options).client = c := by
  obtain ⟨req, hreq⟩ := attachToken_ok c options
  cases hnet : net c.httpClient req with
  | error e => simp [ErmesClient.do', hreq, hnet]
  | ok response =>
    rw [do_of_response c net options req response hreq hnet] at h ⊢
    split_ifs at h ⊢ with h1
    cases hdec : jsonUnmarshal (response.Header.Get c.tokenHeaderName) with
    | error e => rfl
    | ok t =>
      rw [hdec] at h
      cases h

theorem call_error_client (c : ErmesClient) (env : Env) (net : RoundTrip) (call : Call)
    (err : Error) (h : (c.call env net call).result = .error err) :
    (c.call env net call).client = c := by
  rcases call_cases c env net call with ⟨e, h1⟩ | ⟨req0, h1⟩
  · rw [h1]
  · rw [h1] at h ⊢
    exact do_error_client c net req0 err h

theorem client_ext (a b : ErmesClient) (h1 : a.httpClient = b.httpClient)
    (h2 : a.scheme = b.scheme) (h3 : a.tokenHeaderName = b.tokenHeaderName)
    (h4 : a.tokenOrInitialHost = b.tokenOrInitialHost) : a = b := by
  cases a
  cases b
  simp only [ErmesClient.mk.injEq]
  exact ⟨h1, h2, h3, h4⟩

theorem call_no_offer_client (c : ErmesClient) (env : Env) (net : RoundTrip) (call : Call)
    (h : c.offered net (c.call env net call) = none) : (c.call env net call).client = c := by
  obtain ⟨h1, h2, h3, h4⟩ := call_outcome c env net call
  rw [h] at h1
  exact client_ext _ _ h4 h2 h3 h1

/-! ## Sequences of calls -/

theorem after_append (env : Env) (l1 l2 : List (RoundTrip × Call)) :
    ∀ c : ErmesClient, c.after env (l1 ++ l2) = (c.after env l1).after env l2 := by
  induction l1 with
  | nil => intro c; rfl
  | cons x l1 ih =>
    intro c
    obtain ⟨net, call⟩ := x
    simp only [List.cons_append, ErmesClient.after]
    exact ih _

theorem after_frame (env : Env) (calls : List (RoundTrip × Call)) :
    ∀ c : ErmesClient, (c.after env calls).scheme = c.scheme ∧
      (c.after env calls).tokenHeaderName = c.tokenHeaderName ∧
      (c.after env calls).httpClient = c.httpClient := by
  induction calls with
  | nil => intro c; exact ⟨rfl, rfl, rfl⟩
  | cons x calls ih =>
    intro c
    obtain ⟨net, call⟩ := x
    obtain ⟨-, h2, h3, h4⟩ := call_outcome c env net call
    obtain ⟨g2, g3, g4⟩ := ih (c.call env net call).client
    simp only [ErmesClient.after]
    exact ⟨g2.trans h2, g3.trans h3, g4.trans h4⟩

theorem after_target (env : Env) (calls : List (RoundTrip × Call)) :
    ∀ c : ErmesClient, (c.after env calls).tokenOrInitialHost =
      (match lastSome (c.offers env calls) with
        | some t => .token t
        | none => c.tokenOrInitialHost) := by
  induction calls with
  | nil => intro c; rfl
  | cons x calls ih =>
    intro c
    obtain ⟨net, call⟩ := x
    obtain ⟨h1, -⟩ := call_outcome c env net call
    simp only [ErmesClient.after, ErmesClient.offers, lastSome]
    rw [ih (c.call env net call).client]
    cases lastSome ((c.call env net call).client.offers env calls) with
    | some t => rfl
    | none => exact h1

theorem after_not_nil (env : Env) (calls : List (RoundTrip × Call)) (c : ErmesClient)
    (h : c.tokenOrInitialHost ≠ .nil) : (c.after env calls).tokenOrInitialHost ≠ .nil := by
  rw [after_target]
  cases lastSome (c.offers env calls) with
  | some t => simp
  | none => exact h

theorem after_token (env : Env) (calls : List (RoundTrip × Call)) (c : ErmesClient)
    (h : c.Token ≠ none) : (c.after env calls).Token ≠ none := by
  have h1 := after_target env calls c
  unfold ErmesClient.Token at h ⊢
  rw [h1]
  cases lastSome (c.offers env calls) with
  | some t => simp
  | none => exact h

/-- What a successful `NewErmesClient` returns. -/
theorem NewErmesClient_ok (env : Env) (options : ErmesClientOptions) (c : ErmesClient)
    (h : NewErmesClient env options = .ok c) :
    c.httpClient = options.HttpClient.getD HTTPClient.zero ∧
    c.tokenHeaderName =
      (if options.TokenHeaderName = [] then DefaultTokenHeaderName
        else options.TokenHeaderName) ∧
    ((∃ t, options.InitialToken = some t ∧ c.tokenOrInitialHost = .token t ∧
        c.scheme = (if options.Scheme = [] then str "https" else options.Scheme)) ∨
      (∃ u, options.InitialToken = none ∧ options.InitialOrigin ≠ [] ∧
        env.urlParse options.InitialOrigin = .ok u ∧
        c.tokenOrInitialHost = .host u.Host ∧ c.scheme = u.Scheme)) := by
  obtain ⟨hc, name, scheme, origin, tok⟩ := options
  have hname : (if name ≠ [] then name else DefaultTokenHeaderName)
      = (if name = [] then DefaultTokenHeaderName else name) := by
    by_cases hn : name = [] <;> simp [hn]
  cases tok with
  | some t =>
    have hscheme : (if scheme ≠ [] then scheme else str "https")
        = (if scheme = [] then str "https" else scheme) := by
      by_cases hn : scheme = [] <;> simp [hn]
    simp only [NewErmesClient, hname, hscheme, Except.ok.injEq] at h
    subst h
    exact ⟨by cases hc <;> rfl, rfl, Or.inl ⟨t, rfl, rfl, rfl⟩⟩
  | none =>
    by_cases ho : origin = []
    · simp [NewErmesClient, ho] at h
    · cases hu : env.urlParse origin with
      | error e => simp [NewErmesClient, ho, hu] at h
      | ok u =>
        simp only [NewErmesClient, hname, hu, ne_eq, ho, not_false_eq_true, if_true,
          Except.ok.injEq] at h
        subst h
        exact ⟨by cases hc <;> rfl, rfl, Or.inr ⟨u, rfl, ho, rfl, rfl, rfl⟩⟩

theorem NewErmesClient_target (env : Env) (options : ErmesClientOptions) (c : ErmesClient)
    (h : NewErmesClient env options = .ok c) :
    (∃ host, c.tokenOrInitialHost = .host host) ∨ (∃ t, c.tokenOrInitialHost = .token t) := by
  obtain ⟨-, -, ⟨t, -, h3, -⟩ | ⟨u, -, -, -, h3, -⟩⟩ := NewErmesClient_ok env options c h
  · exact Or.inr ⟨t, h3⟩
  · exact Or.inl ⟨_, h3⟩

/-! ## Transport failures and URL resolution -/

/-- C11: when the transport fails with an error, the call returns that very
error and no response, exactly one request was handed to the transport, and
the client is what it was. -/
theorem C11_transport_failure_is_returned (c : ErmesClient) (net : RoundTrip)
    (options req : Request) (err : Error)
    (hreq : c.attachToken options = .ok req)
    (hnet : net c.httpClient req = .error err) :
    (c.do' net options).result = .error err ∧
    (c.do' net options).sent = [req] ∧
    (c.do' net options).client = c ∧
    (c.do' net options).client.Host = c.Host ∧
    (c.do' net options).client.Token = c.Token := by
  have h : c.do' net options = ⟨c, [req], .error err⟩ := by
    simp [ErmesClient.do', hreq, hnet]
  rw [h]
  exact ⟨rfl, rfl, rfl, rfl, rfl⟩

/-- The transport failure of C11 on the client that holds a token. -/
theorem C11_witness :
    (sampleTokenClient.do' (sampleFailingNet (.other 7)) sampleRequest).result
      = .error (.other 7) ∧
    (sampleTokenClient.do' (sampleFailingNet (.other 7)) sampleRequest).sent.length = 1 ∧
    (sampleTokenClient.do' (sampleFailingNet (.other 7)) sampleRequest).client
      = sampleTokenClient :=
  have h := C11_transport_failure_is_returned sampleTokenClient (sampleFailingNet (.other 7))
    sampleRequest
    { sampleRequest with Header := some [(CanonicalMIMEHeaderKey DefaultTokenHeaderName,
        [str "\x7b\"sessionId\":\"s1\",\"host\":\"h1\"\x7d"])] }
    (.other 7) (by rfl) (by rfl)
  ⟨h.1, by rw [h.2.1]; rfl, h.2.2.1⟩

theorem NewRequest_error (env : Env) (method url : GoString) (body : Option GoString)
    (err : Error) (hmethod : method ≠ [] ∧ method.all validHeaderFieldByte = true)
    (hurl : env.urlParse url = .error err) :
    NewRequest env method url body = .error err := by
  simp [NewRequest, hmethod.1, hmethod.2, hurl]

/-- C12: the URL of a path is the parse of `scheme://host<path>` with the host
the client has at the time of the call; when that text does not parse, every
public method returns the parse error, hands nothing to the transport and
leaves the client as it is. -/
theorem C12_url_resolution (c : ErmesClient) (env : Env) (path : GoString) :
    c.StringURL path = c.scheme ++ str "://" ++ c.Host ++ path ∧
    c.URL env path = env.urlParse (c.scheme ++ str "://" ++ c.Host ++ path) ∧
    (∀ err, env.urlParse (c.scheme ++ str "://" ++ c.Host ++ path) = .error err →
      ∀ (net : RoundTrip) (options : Request) (bodyType : GoString) (body : Option GoString),
        c.Do env net path options = ⟨c, [], .error err⟩ ∧
        c.Get env net path = ⟨c, [], .error err⟩ ∧
        c.Head env net path = ⟨c, [], .error err⟩ ∧
        c.Post env net path bodyType body = ⟨c, [], .error err⟩) := by
  refine ⟨rfl, rfl, ?_⟩
  intro err herr net options bodyType body
  have hs : env.urlParse (c.StringURL path) = .error err := herr
  refine ⟨?_, ?_, ?_, ?_⟩
  · simp only [ErmesClient.Do, ErmesClient.URL, hs]
  · simp only [ErmesClient.Get, NewRequest_error env (str "GET") _ none err (by decide) hs]
  · simp only [ErmesClient.Head, NewRequest_error env (str "HEAD") _ none err (by decide) hs]
  · simp only [ErmesClient.Post, NewRequest_error env (str "POST") _ body err (by decide) hs]

/-- The resolution of C12 on a client whose host has a space in it: the text
does not parse and `Get` returns the error without a request. -/
theorem C12_witness :
    sampleBadHostClient.StringURL (str "/resource") = str "https://h 2/resource" ∧
    sampleBadHostClient.Get sampleEnv (sampleNet (sampleResponse 200 sampleTokenText))
        (str "/resource") = ⟨sampleBadHostClient, [], .error (.other 1)⟩ :=
  have h := C12_url_resolution sampleBadHostClient sampleEnv (str "/resource")
  ⟨h.1.trans (by decide),
    (h.2.2 (.other 1) (by rfl) (sampleNet (sampleResponse 200 sampleTokenText)) sampleRequest
      [] none).2.1⟩

/-! ## The convenience methods and `Do` -/

theorem do_congr (c : ErmesClient) (net : RoundTrip) (o1 o2 q1 q2 : Request)
    (h1 : c.attachToken o1 = .ok q1) (h2 : c.attachToken o2 = .ok q2)
    (hnet : net c.httpClient q1 = net c.httpClient q2) :
    (c.do' net o1).result = (c.do' net o2).result ∧
    (c.do' net o1).client = (c.do' net o2).client := by
  cases hn : net c.httpClient q1 with
  | error e =>
    have hn2 : net c.httpClient q2 = .error e := by rw [← hnet, hn]
    simp [ErmesClient.do', h1, h2, hn, hn2]
  | ok response =>
    have hn2 : net c.httpClient q2 = .ok response := by rw [← hnet, hn]
    rw [do_of_response c net o1 q1 response h1 hn, do_of_response c net o2 q2 response h2 hn2]
    split_ifs
    · cases jsonUnmarshal (response.Header.Get c.tokenHeaderName) <;> exact ⟨rfl, rfl⟩
    · exact ⟨rfl, rfl⟩

theorem attachToken_fields (c : ErmesClient) (o q : Request) (h : c.attachToken o = .ok q) :
    q.Method = o.Method ∧ q.URL = o.URL ∧ q.Body = o.Body ∧ q.Host = o.Host := by
  cases ht : c.Token with
  | none =>
    rw [attachToken_none c o ht] at h
    cases h
    exact ⟨rfl, rfl, rfl, rfl⟩
  | some t =>
    obtain ⟨enc, -, hq⟩ := attachToken_some c o t ht
    rw [hq] at h
    cases h
    exact ⟨rfl, rfl, rfl, rfl⟩

theorem attachToken_header (c : ErmesClient) (o1 o2 q1 q2 : Request)
    (h1 : c.attachToken o1 = .ok q1) (h2 : c.attachToken o2 = .ok q2)
    (hh : o1.Header = o2.Header) : q1.Header = q2.Header := by
  cases ht : c.Token with
  | none =>
    rw [attachToken_none c o1 ht] at h1
    rw [attachToken_none c o2 ht] at h2
    cases h1
    cases h2
    exact hh
  | some t =>
    obtain ⟨enc1, he1, hq1⟩ := attachToken_some c o1 t ht
    obtain ⟨enc2, he2, hq2⟩ := attachToken_some c o2 t ht
    rw [he1] at he2
    cases he2
    rw [hq1] at h1
    rw [hq2] at h2
    cases h1
    cases h2
    simp only [hh]

theorem NewRequest_fields (env : Env) (method url : GoString) (body : Option GoString)
    (r : Request) (hmethod : method ≠ []) (h : NewRequest env method url body = .ok r) :
    r.Method = method ∧ r.Header = some [] ∧ r.Body = body := by
  unfold NewRequest at h
  simp only [if_neg hmethod] at h
  split_ifs at h
  cases hu : env.urlParse url with
  | error e =>
    rw [hu] at h
    cases h
  | ok u =>
    rw [hu] at h
    simp only [] at h
    cases h
    exact ⟨rfl, rfl, rfl⟩

/-- How far `Get` agrees with `Do` on a request built by `NewErmesRequest`:
the requests handed to the transport have the same method, headers and body;
the URL of the one is the URL of the other with an empty port dropped; the
`Host` of the `Get` request is the resolved host, the `Host` of the `Do`
request is the one of the placeholder; and when the transport answers both
alike, result and client are the same. -/
theorem Get_Do_requests (c : ErmesClient) (env : Env) (net : RoundTrip) (path : GoString)
    (r : Request) (u : URL)
    (hr : NewErmesRequest env (str "GET") none = .ok r)
    (hu : env.urlParse (c.StringURL path) = .ok u) :
    ∃ rGet rDo, (c.Get env net path).sent = [rGet] ∧ (c.Do env net path r).sent = [rDo] ∧
      rGet.Method = rDo.Method ∧ rGet.Header = rDo.Header ∧ rGet.Body = rDo.Body ∧
      rGet.URL = some { u with Host := removeEmptyPort u.Host } ∧ rDo.URL = some u ∧
      rGet.Host = removeEmptyPort u.Host ∧ rDo.Host = r.Host ∧
      (net c.httpClient rGet = net c.httpClient rDo →
        (c.Get env net path).result = (c.Do env net path r).result ∧
        (c.Get env net path).client = (c.Do env net path r).client) := by
  obtain ⟨hm, hh, hb⟩ := NewRequest_fields env (str "GET") placeholderURL none r (by decide) hr
  have hnew := NewRequest_ok env (str "GET") (c.StringURL path) none u (by decide) hu
  obtain ⟨qG, hqG⟩ := attachToken_ok c
    { Method := str "GET", URL := some { u with Host := removeEmptyPort u.Host },
      Header := some [], Body := none, Host := removeEmptyPort u.Host }
  obtain ⟨qD, hqD⟩ := attachToken_ok c { r with URL := some u }
  obtain ⟨g1, g2, g3, g4⟩ := attachToken_fields c _ qG hqG
  obtain ⟨d1, d2, d3, d4⟩ := attachToken_fields c _ qD hqD
  have hhdr := attachToken_header c _ _ qG qD hqG hqD (by simp only [hh])
  have hGet : c.Get env net path = c.do' net
      { Method := str "GET", URL := some { u with Host := removeEmptyPort u.Host },
        Header := some [], Body := none, Host := removeEmptyPort u.Host } := by
    simp only [ErmesClient.Get, hnew]
  have hDo : c.Do env net path r = c.do' net { r with URL := some u } := by
    simp only [ErmesClient.Do, ErmesClient.URL, hu]
  rw [hGet, hDo]
  refine ⟨qG, qD, do_sent c net _ qG hqG, do_sent c net _ qD hqD, ?_, hhdr, ?_, g2, d2, g4, d4,
    fun hnet => do_congr c net _ _ qG qD hqG hqD hnet⟩
  · rw [g1, d1, hm]
  · rw [g3, d3, hb]

/-- C13 fails on the code: `Do` retargets a request from `NewErmesRequest` by
replacing its URL only, so the request keeps the `Host` of the placeholder
(`google.com`), while `Get` hands over a request whose `Host` is the resolved
host.  A server that answers by `Host` gives the token to the `Get` request
and a 404 to the `Do` request: the results and the routing states differ. -/
theorem C13_do_keeps_placeholder_host :
    NewErmesRequest sampleEnv (str "GET") none = .ok sampleRequest ∧
    (sampleClient.Get sampleEnv sampleVirtualHostNet (str "/resource")).sent =
      [{ Method := str "GET"
         URL := some ⟨str "https", str "host.example", str "/resource", [], []⟩
         Header := some []
         Body := none
         Host := str "host.example" }] ∧
    (sampleClient.Do sampleEnv sampleVirtualHostNet (str "/resource") sampleRequest).sent =
      [{ Method := str "GET"
         URL := some ⟨str "https", str "host.example", str "/resource", [], []⟩
         Header := some []
         Body := none
         Host := str "google.com" }] ∧
    (sampleClient.Get sampleEnv sampleVirtualHostNet (str "/resource")).result
      = .ok (sampleResponse 200 sampleTokenText) ∧
    (sampleClient.Do sampleEnv sampleVirtualHostNet (str "/resource") sampleRequest).result
      = .ok (sampleResponse 404 []) ∧
    (sampleClient.Get sampleEnv sampleVirtualHostNet (str "/resource")).client.Token
      = some sampleToken ∧
    (sampleClient.Do sampleEnv sampleVirtualHostNet (str "/resource") sampleRequest).client.Token
      = none := by
  decide

/-! ## The token header name -/

/-- C14: the name under which the client sets the held token on a request and
reads a token from a response is the `TokenHeaderName` option, or
`X-ErmesSessionToken` when that option is empty.  The held token is set under
that name and no other map key is touched; a token is adopted from a 200
response when it stands under that name; and a response with nothing under
that name leaves the client as it is, whatever it carries under other names. -/
theorem C14_token_header_name (env : Env) (options : ErmesClientOptions) (c : ErmesClient)
    (hnew : NewErmesClient env options = .ok c) :
    c.tokenHeaderName =
      (if options.TokenHeaderName = [] then DefaultTokenHeaderName
        else options.TokenHeaderName) ∧
    (∀ (net : RoundTrip) (req0 : Request) (t : ErmesToken), c.Token = some t →
      ∃ req enc, (c.do' net req0).sent = [req] ∧ jsonMarshal t = .ok enc ∧
        req.Header.Values c.tokenHeaderName = [enc] ∧
        ∀ key, key ≠ CanonicalMIMEHeaderKey c.tokenHeaderName →
          req.Header.index key = req0.Header.index key) ∧
    (∀ (net : RoundTrip) (req0 req : Request) (response : Response),
      c.attachToken req0 = .ok req → net c.httpClient req = .ok response →
      (∀ t, response.StatusCode = StatusOK →
        response.Header.Get c.tokenHeaderName ≠ [] →
        jsonUnmarshal (response.Header.Get c.tokenHeaderName) = .ok t →
        (c.do' net req0).client.Token = some t) ∧
      (response.Header.Get c.tokenHeaderName = [] → (c.do' net req0).client = c)) := by
  refine ⟨(NewErmesClient_ok env options c hnew).2.1, ?_, ?_⟩
  · intro net req0 t ht
    obtain ⟨req, enc, h1, h2, h3, h4, -⟩ := do_sent_held c net req0 t ht
    exact ⟨req, enc, h1, h2, h3, h4⟩
  · intro net req0 req response hreq hnet
    rw [do_of_response c net req0 req response hreq hnet]
    refine ⟨?_, ?_⟩
    · intro t h1 h2 h3
      rw [if_pos ⟨h1, h2⟩, h3]
      rfl
    · intro h
      rw [if_neg (fun hc => hc.2 h)]

/-- The naming of C14 on the custom name `X-CustomTokenHeaderName`: the held
token goes out under the custom name and not under the default one, and a
token that arrives under the default name is not adopted. -/
theorem C14_witness :
    NewErmesClient sampleEnv sampleCustomOptions = .ok sampleCustomClient ∧
    sampleCustomClient.tokenHeaderName = sampleCustomName ∧
    (sampleCustomClient.do' (sampleNet (sampleResponse 200 sampleTokenText))
      sampleRequest).client = sampleCustomClient ∧
    ∃ req, (sampleCustomClient.do' (sampleNet (sampleResponse 200 sampleTokenText))
        sampleRequest).sent = [req] ∧
      req.Header.Values sampleCustomName
        = [str "\x7b\"sessionId\":\"s1\",\"host\":\"h1\"\x7d"] ∧
      req.Header.Values DefaultTokenHeaderName = [] := by
  have hnew : NewErmesClient sampleEnv sampleCustomOptions = .ok sampleCustomClient := by rfl
  obtain ⟨h1, h2, h3⟩ := C14_token_header_name sampleEnv sampleCustomOptions sampleCustomClient
    hnew
  refine ⟨hnew, h1.trans (by decide), ?_, ?_⟩
  · exact (h3 (sampleNet (sampleResponse 200 sampleTokenText)) sampleRequest
      { sampleRequest with Header := some [(CanonicalMIMEHeaderKey sampleCustomName,
          [str "\x7b\"sessionId\":\"s1\",\"host\":\"h1\"\x7d"])] }
      (sampleResponse 200 sampleTokenText) (by rfl) (by rfl)).2 (by decide)
  · obtain ⟨req, enc, g1, g2, g3, g4⟩ := h2 (sampleNet (sampleResponse 200 sampleTokenText))
      sampleRequest ⟨str "s1", str "h1"⟩ (by rfl)
    have h5 : jsonMarshal ⟨str "s1", str "h1"⟩
        = .ok (str "\x7b\"sessionId\":\"s1\",\"host\":\"h1\"\x7d") := by rfl
    rw [h5] at g2
    cases g2
    exact ⟨req, g1, g3, (g4 _ (by decide)).trans (by rfl)⟩

/-! ## Invariants over sequences of calls -/

/-- C15: a client returned by `NewErmesClient` addresses an initial host or
holds a token, and so it does after every sequence of calls (the nil routing
target of `Host` never occurs); once it holds a token it holds one after
every later call; and a held token can be replaced by another one. -/
theorem C15_routing_target_invariant (env : Env) (options : ErmesClientOptions)
    (c : ErmesClient) (calls later : List (RoundTrip × Call))
    (hnew : NewErmesClient env options = .ok c) :
    ((∃ host, (c.after env calls).tokenOrInitialHost = .host host) ∨
      (∃ t, (c.after env calls).tokenOrInitialHost = .token t)) ∧
    ((c.after env calls).Token ≠ none → (c.after env (calls ++ later)).Token ≠ none) ∧
    (∀ (c0 : ErmesClient) (req : Request) (t1 t2 : ErmesToken) (text : GoString),
      c0.Token = some t1 → text ≠ [] → jsonUnmarshal text = .ok t2 →
      ∃ net : RoundTrip, (c0.do' net req).client.Token = some t2) ∧
    (∃ (c0 : ErmesClient) (net : RoundTrip) (req : Request) (t1 t2 : ErmesToken),
      t1 ≠ t2 ∧ c0.Token = some t1 ∧ (c0.do' net req).client.Token = some t2) := by
  refine ⟨?_, ?_, ?_, ?_⟩
  · have h0 : c.tokenOrInitialHost ≠ .nil := by
      rcases NewErmesClient_target env options c hnew with ⟨h, hh⟩ | ⟨t, ht⟩
      · rw [hh]
        simp
      · rw [ht]
        simp
    have h1 := after_not_nil env calls c h0
    cases ht : (c.after env calls).tokenOrInitialHost with
    | nil => exact absurd ht h1
    | host h => exact Or.inl ⟨h, rfl⟩
    | token t => exact Or.inr ⟨t, rfl⟩
  · intro h
    rw [after_append]
    exact after_token env later _ h
  · intro c0 req t1 t2 text _ hne hdec
    obtain ⟨req1, hreq⟩ := attachToken_ok c0 req
    have hget : Header.Get (some [(CanonicalMIMEHeaderKey c0.tokenHeaderName, [text])])
        c0.tokenHeaderName = text := by
      simp [Header.Get, Header.index, HeaderMap.values, List.lookup]
    refine ⟨fun _ _ => .ok ⟨StatusOK,
      some [(CanonicalMIMEHeaderKey c0.tokenHeaderName, [text])], []⟩, ?_⟩
    rw [do_of_response c0 _ req req1 _ hreq rfl]
    dsimp only
    rw [hget, if_pos ⟨rfl, hne⟩, hdec]
    rfl
  · exact ⟨sampleTokenClient, sampleNet (sampleResponse 200 sampleTokenText), sampleRequest,
      ⟨str "s1", str "h1"⟩, sampleToken, by decide, by rfl, by rfl⟩

/-- The invariant of C15 on the client built from `https://host.example`: a
`Get` answered with a token, then a `Get` answered with a 404 and a failing
`Get` leave the client with the token. -/
theorem C15_witness :
    (sampleClient.after sampleEnv
      ([(sampleNet (sampleResponse 200 sampleTokenText), Call.Get (str "/resource"))] ++
        [(sampleNet (sampleResponse 404 []), Call.Get (str "/resource")),
         (sampleFailingNet (.other 7), Call.Get (str "/resource"))])).Token ≠ none :=
  (C15_routing_target_invariant sampleEnv
    { HttpClient := none, TokenHeaderName := [], Scheme := [],
      InitialOrigin := str "https://host.example", InitialToken := none }
    sampleClient [(sampleNet (sampleResponse 200 sampleTokenText), Call.Get (str "/resource"))]
    [(sampleNet (sampleResponse 404 []), Call.Get (str "/resource")),
     (sampleFailingNet (.other 7), Call.Get (str "/resource"))] (by rfl)).2.1 (by decide)

/-- C16: a call, whether it succeeds or fails, and so every sequence of calls,
leaves the scheme, the token header name and the HTTP client of the client as
they were; only the routing target can differ. -/
theorem C16_configuration_is_frozen (c : ErmesClient) (env : Env) (net : RoundTrip)
    (call : Call) (calls : List (RoundTrip × Call)) :
    (c.call env net call).client.scheme = c.scheme ∧
    (c.call env net call).client.tokenHeaderName = c.tokenHeaderName ∧
    (c.call env net call).client.httpClient = c.httpClient ∧
    (c.after env calls).scheme = c.scheme ∧
    (c.after env calls).tokenHeaderName = c.tokenHeaderName ∧
    (c.after env calls).httpClient = c.httpClient ∧
    c.after env calls = { c with tokenOrInitialHost := (c.after env calls).tokenOrInitialHost } := by
  obtain ⟨-, h2, h3, h4⟩ := call_outcome c env net call
  obtain ⟨g2, g3, g4⟩ := after_frame env calls c
  exact ⟨h2, h3, h4, g2, g3, g4, client_ext _ _ g4 g2 g3 rfl⟩

/-- C17: after a sequence of calls made one after another the routing target
is the token offered by the latest call whose transport answer was a 200
response with a non-empty token header that decodes, and the target the
sequence started from when there is no such call.  A call that returns an
error, and a call during which no token is offered, leave the client as it
was. -/
theorem C17_last_decoded_token_wins (c : ErmesClient) (env : Env)
    (calls : List (RoundTrip × Call)) :
    (c.after env calls).tokenOrInitialHost =
      (match lastSome (c.offers env calls) with
        | some t => .token t
        | none => c.tokenOrInitialHost) ∧
    (∀ (net : RoundTrip) (call : Call) (err : Error),
      (c.call env net call).result = .error err → (c.call env net call).client = c) ∧
    (∀ (net : RoundTrip) (call : Call),
      c.offered net (c.call env net call) = none → (c.call env net call).client = c) :=
  ⟨after_target env calls c, call_error_client c env, call_no_offer_client c env⟩

/-- The rule of C17 on four calls: a token is adopted, a 404 that carries
another token changes nothing, a second token replaces the first, and a
transport failure changes nothing. -/
theorem C17_witness :
    (sampleClient.after sampleEnv
      [(sampleNet (sampleResponse 200 (str "\x7b\"sessionId\":\"s1\",\"host\":\"h1\"\x7d")),
          Call.Get (str "/a")),
       (sampleNet (sampleResponse 404 (str "\x7b\"sessionId\":\"s3\",\"host\":\"h3\"\x7d")),
          Call.Head (str "/b")),
       (sampleNet (sampleResponse 200 sampleTokenText), Call.Post (str "/c") (str "text/plain")
          (some (str "x"))),
       (sampleFailingNet (.other 7), Call.Get (str "/d"))]).tokenOrInitialHost
      = .token sampleToken :=
  (C17_last_decoded_token_wins sampleClient sampleEnv _).1.trans (by rfl)

end Ermes
